import Mathlib

/-!
Shallow embedding of the iavl node-storage subsystem.

This file embeds the operations of `nodedb.go` and `proof_ics23.go` from the
iavl repository and proves properties of the embedded definitions.

Modelling conventions:

* Byte strings (`[]byte` in Go) are `List Nat` (each entry a byte value).
* `int64` fields are `Int`; where the Go code relies on the big-endian byte
  encoding of an `int64` inside a database key (so that lexicographic byte
  order is unsigned 64-bit order), the model uses `toU`, the value of the
  64-bit two's-complement representation read as an unsigned integer.
* The backing store and the pending write batch are collapsed into one
  logical store.  Every modelled operation performs all of its reads of a
  given record kind before its writes of that kind (checked against the Go
  source operation by operation), so the collapsed store yields the same
  final contents as the batch discipline of the Go code.  The one read that
  Go answers from the database while the batch holds pending writes is the
  node lookup inside `deleteNodesFrom`; the model mirrors this by computing
  the set of node deletions against the unmodified node store first and
  applying them afterwards.
* A Go function that can return an error is modelled as returning
  `NodeDB × Option String` : the resulting state (the Go batch survives an
  error return, so the state must be reported alongside the error) and the
  error, `none` meaning a `nil` error.  A Go `panic` is modelled as an
  error string starting with `panic:`.
* The two LRU caches are modelled by their key sets (`nodeCache` as a list
  of cached node hashes, `fastNodeCache` as a list of cached fast nodes).
  The claims under study only mention insertion and eviction by key, never
  the LRU order, so the order bookkeeping is omitted.
-/

namespace Iavl

/-- Decidable equality of `Except` results, used to state concrete
evaluations of fallible operations. -/
instance {ε α : Type} [DecidableEq ε] [DecidableEq α] : DecidableEq (Except ε α) :=
  fun x y =>
    match x, y with
    | .ok a, .ok b =>
      if h : a = b then .isTrue (by rw [h]) else .isFalse (by simp [h])
    | .error a, .error b =>
      if h : a = b then .isTrue (by rw [h]) else .isFalse (by simp [h])
    | .ok _, .error _ => .isFalse (by simp)
    | .error _, .ok _ => .isFalse (by simp)

/-- Byte strings (`[]byte`); `[]` plays the role of both nil and empty. -/
abbrev Bytes := List Nat

/-- Unsigned 64-bit value of an `int64`: the number obtained by reading the
two's-complement representation as unsigned, which is how an `int64` field
embedded big-endian in a database key orders lexicographically. -/
def toU (x : Int) : Int := x % (2 ^ 64 : Int)

/-- Big-endian 8-byte encoding of an `int64` (`KeyFormat` fixed field). -/
def be8 (x : Int) : Bytes :=
  let u := (toU x).toNat
  [u / 2 ^ 56 % 256, u / 2 ^ 48 % 256, u / 2 ^ 40 % 256, u / 2 ^ 32 % 256,
   u / 2 ^ 24 % 256, u / 2 ^ 16 % 256, u / 2 ^ 8 % 256, u % 256]

/-- An orphan record `o<last-version><first-version><hash>`: the node `hash`
was created at `fromVersion` and last belonged to the live tree at
`toVersion`. -/
structure OrphanRec where
  toVersion : Int
  fromVersion : Int
  hash : Bytes
deriving DecidableEq

/-- A persisted tree node record, keyed by `hash`; only the fields the
modelled operations read are kept (`version`, the child hashes used by
`deleteNodesFrom`, and the user `key` of the node).  `[]` child hash models
a `nil` child pointer. -/
structure NodeRec where
  hash : Bytes
  key : Bytes
  version : Int
  leftHash : Bytes
  rightHash : Bytes
deriving DecidableEq

/-- A fast-node record: raw user `key`, `value`, and the version at which
the key was last updated. -/
structure FastNodeRec where
  key : Bytes
  value : Bytes
  versionLastUpdatedAt : Int
deriving DecidableEq

/-- The `nodeDB` state: the four record stores of the backing KV store
(nodes, orphans, roots, fast nodes), the storage-version string, the cached
latest version (0 = not yet computed), the two caches, and the per-version
active-reader counts. -/
structure NodeDB where
  nodes : List NodeRec
  orphans : List OrphanRec
  roots : List (Int × Bytes)
  fastNodes : List FastNodeRec
  storageVersion : String
  latestVersion : Int
  nodeCache : List Bytes
  fastNodeCache : List FastNodeRec
  versionReaders : List (Int × Nat)
deriving DecidableEq

/-- `'o'` prefix byte of `orphanKeyFormat`. -/
def orphanPrefixByte : Nat := 111

/-- The full database key of an orphan record,
`'o' ++ be8 toVersion ++ be8 fromVersion ++ hash` (`orphanKeyFormat.Key`). -/
def orphanDbKey (toVersion fromVersion : Int) (hash : Bytes) : Bytes :=
  orphanPrefixByte :: (be8 toVersion ++ be8 fromVersion ++ hash)

/-- Node record lookup by hash (`db.Get(nodeKey(hash))`). -/
def lookupNode (nodes : List NodeRec) (h : Bytes) : Option NodeRec :=
  nodes.find? (fun n => n.hash == h)

/-- Root record lookup by version (`getRoot`). -/
def lookupRoot (roots : List (Int × Bytes)) (v : Int) : Option Bytes :=
  (roots.find? (fun r => r.1 == v)).map (fun r => r.2)

/-- Reader count of a version (Go map read, defaulting to 0). -/
def readersGet (readers : List (Int × Nat)) (v : Int) : Nat :=
  ((readers.find? (fun r => r.1 == v)).map (fun r => r.2)).getD 0

/-- Store a value in an association list keyed by `Int`. -/
def assocSet (l : List (Int × Nat)) (k : Int) (v : Nat) : List (Int × Nat) :=
  if l.any (fun p => p.1 == k) then
    l.map (fun p => if p.1 == k then (k, v) else p)
  else
    (k, v) :: l

/-- `getPreviousVersion(version)`: reverse-iterate the root records in the
key range `[rootKey(1), rootKey(version))` and return the first (that is,
largest in unsigned big-endian key order) version found, or 0 if none. -/
def getPreviousVersion (s : NodeDB) (version : Int) : Int :=
  s.roots.foldl
    (fun acc r =>
      if 1 ≤ toU r.1 ∧ toU r.1 < toU version ∧ toU acc < toU r.1 then r.1 else acc)
    0

/-- `getLatestVersion()`: the cached value if already computed, otherwise
the largest version with a root record below `1<<63 - 1`. -/
def getLatestVersion (s : NodeDB) : Int :=
  if s.latestVersion = 0 then getPreviousVersion s (2 ^ 63 - 1) else s.latestVersion

/-- `getLatestVersion()` including its memoisation side effect: the state
with the `latestVersion` field filled in, together with the value. -/
def memoLatest (s : NodeDB) : NodeDB × Int :=
  ({ s with latestVersion := getLatestVersion s }, getLatestVersion s)

/-! ## String helpers (Go `strings.Split`, byte-wise `<`, `strconv.Itoa`)

These are written by structural recursion on the character list so that they
evaluate by kernel reduction on concrete inputs. -/

/-- Split a character list on the character `'-'`; `strings.Split(s, "-")`
on the underlying characters.  The empty string yields `[""]`. -/
def splitCharsDash : List Char → List (List Char)
  | [] => [[]]
  | c :: cs =>
    if c = '-' then [] :: splitCharsDash cs
    else
      match splitCharsDash cs with
      | [] => [[c]]
      | g :: gs => (c :: g) :: gs

/-- `strings.Split(s, fastStorageVersionDelimiter)`. -/
def splitOnDash (s : String) : List String :=
  (splitCharsDash s.data).map (fun l => String.mk l)

/-- Lexicographic `<` on character lists; Go's byte-wise string comparison
(UTF-8 byte order and code-point order agree). -/
def lexLt : List Char → List Char → Bool
  | [], [] => false
  | [], _ :: _ => true
  | _ :: _, [] => false
  | a :: as, b :: bs => if a < b then true else if b < a then false else lexLt as bs

/-- Go string `a < b`. -/
def goStrLt (a b : String) : Bool := lexLt a.data b.data

/-- Decimal digits of a natural number (most significant first); the fuel
argument makes the recursion structural and is always sufficient. -/
def natStrAux : Nat → Nat → List Char
  | 0, _ => []
  | fuel + 1, n =>
    if n = 0 then [] else natStrAux fuel (n / 10) ++ [Char.ofNat (48 + n % 10)]

/-- Decimal representation of a natural number. -/
def natStr (n : Nat) : String :=
  if n = 0 then "0" else String.mk (natStrAux (n + 1) n)

/-- `strconv.Itoa` on an `int64` value. -/
def itoa (i : Int) : String :=
  if i < 0 then "-" ++ natStr (-i).toNat else natStr i.toNat

/-! ## Storage-version constants and migrator (`nodedb.go`) -/

/-- `fastStorageVersionDelimiter`. -/
def fastStorageVersionDelimiter : String := "-"

/-- `defaultStorageVersionValue`. -/
def defaultStorageVersionValue : String := "1.0.0"

/-- `fastStorageVersionValue`. -/
def fastStorageVersionValue : String := "1.1.0"

/-- `errInvalidFastStorageVersion`. -/
def errInvalidFastStorageVersion : String :=
  "Fast storage version must be in the format <storage version>-<latest fast cache version>"

/-- `setFastStorageVersionToBatch()`.  The parameter `setOk` is the oracle
for whether the underlying `batch.Set` succeeds (`true`) or returns an I/O
error (`false`); a failed `batch.Set` writes nothing.  Returns the new state
and the error, if any. -/
def setFastStorageVersionToBatch (s : NodeDB) (setOk : Bool) : NodeDB × Option String :=
  if goStrLt s.storageVersion fastStorageVersionValue then
    -- legacy storage version: upgrade from scratch
    let newVersion := fastStorageVersionValue ++ fastStorageVersionDelimiter
      ++ itoa (getLatestVersion s)
    if setOk then ({ s with latestVersion := getLatestVersion s, storageVersion := newVersion }, none)
    else ({ s with latestVersion := getLatestVersion s }, some "batch set failed")
  else
    let versions := splitOnDash s.storageVersion
    if versions.length > 2 then (s, some errInvalidFastStorageVersion)
    else
      let newVersion := versions.headD "" ++ fastStorageVersionDelimiter
        ++ itoa (getLatestVersion s)
      if setOk then ({ s with latestVersion := getLatestVersion s, storageVersion := newVersion }, none)
      else ({ s with latestVersion := getLatestVersion s }, some "batch set failed")

/-- `shouldForceFastStorageUpgrade()`. -/
def shouldForceFastStorageUpgrade (s : NodeDB) : Bool :=
  let versions := splitOnDash s.storageVersion
  if versions.length == 2 then
    versions.getD 1 "" != itoa (getLatestVersion s)
  else false

/-! ## Root saving and reader counts (`nodedb.go`) -/

/-- Store a root record, overwriting any record with the same version key. -/
def rootsSet (roots : List (Int × Bytes)) (version : Int) (hash : Bytes) :
    List (Int × Bytes) :=
  if roots.any (fun r => r.1 == version) then
    roots.map (fun r => if r.1 == version then (version, hash) else r)
  else
    roots ++ [(version, hash)]

/-- `saveRoot(hash, version)`: refuse a non-consecutive version (unless no
version has been saved yet), otherwise batch-write the root record and raise
`latestVersion` (`updateLatestVersion` only ever raises it). -/
def saveRoot (s : NodeDB) (hash : Bytes) (version : Int) : NodeDB × Option String :=
  let (s0, latest) := memoLatest s
  if latest > 0 ∧ version ≠ latest + 1 then
    (s0, some "must save consecutive versions")
  else
    ({ s0 with
        roots := rootsSet s0.roots version hash,
        latestVersion := if s0.latestVersion < version then version else s0.latestVersion },
      none)

/-- `incrVersionReaders(version)`: `versionReaders[version]++` with the
`uint32` wrap-around of Go map arithmetic. -/
def incrVersionReaders (s : NodeDB) (version : Int) : NodeDB :=
  { s with versionReaders :=
      assocSet s.versionReaders version ((readersGet s.versionReaders version + 1) % 2 ^ 32) }

/-- `decrVersionReaders(version)`: decrement only when the count is
positive. -/
def decrVersionReaders (s : NodeDB) (version : Int) : NodeDB :=
  if readersGet s.versionReaders version > 0 then
    { s with versionReaders :=
        assocSet s.versionReaders version (readersGet s.versionReaders version - 1) }
  else s

/-- One reader-count event. -/
inductive ReaderOp where
  | incr (version : Int)
  | decr (version : Int)
deriving DecidableEq

/-- Run a sequence of reader-count events against a state. -/
def runReaderOps (s : NodeDB) (ops : List ReaderOp) : NodeDB :=
  ops.foldl
    (fun st op =>
      match op with
      | .incr v => incrVersionReaders st v
      | .decr v => decrVersionReaders st v)
    s

/-! ## Orphan bookkeeping and version deletion (`nodedb.go`) -/

/-- `batch.Delete(orphanKey)`: remove an orphan record. -/
def orphansDelete (orphans : List OrphanRec) (o : OrphanRec) : List OrphanRec :=
  orphans.filter (fun x => !(x == o))

/-- `batch.Set(orphanKey, hash)`: make an orphan record present. -/
def orphansSet (orphans : List OrphanRec) (o : OrphanRec) : List OrphanRec :=
  if orphans.any (fun x => x == o) then orphans else orphans ++ [o]

/-- `uncacheNode(hash)`: drop a node from the node cache. -/
def uncacheNode (s : NodeDB) (hash : Bytes) : NodeDB :=
  { s with nodeCache := s.nodeCache.filter (fun h => !(h == hash)) }

/-- `uncacheFastNode(key)`: drop the fast-node cache entry stored under
`key` (the cache is keyed by the raw user key of the fast node). -/
def uncacheFastNode (s : NodeDB) (key : Bytes) : NodeDB :=
  { s with fastNodeCache := s.fastNodeCache.filter (fun f => !(f.key == key)) }

/-- `saveOrphan(hash, fromVersion, toVersion)`: panics when the lifetime is
inverted, otherwise batch-writes the orphan record. -/
def saveOrphan (s : NodeDB) (hash : Bytes) (fromVersion toVersion : Int) :
    NodeDB × Option String :=
  if fromVersion > toVersion then
    (s, some "panic: Orphan expires before it comes alive")
  else
    ({ s with orphans := orphansSet s.orphans ⟨toVersion, fromVersion, hash⟩ }, none)

/-- Error-short-circuiting fold: a `traverse*` loop whose callback may
return an error, which stops the iteration (the batch keeps the writes made
so far). -/
def goFold (f : NodeDB → α → NodeDB × Option String) :
    NodeDB → List α → NodeDB × Option String
  | st, [] => (st, none)
  | st, a :: rest =>
    match f st a with
    | (st1, none) => goFold f st1 rest
    | (st1, some e) => (st1, some e)

/-- The orphans whose database key carries `toVersion = v`
(`traverseOrphansVersion` iterates the key prefix `o ++ be8 v`). -/
def orphansAtVersion (orphans : List OrphanRec) (v : Int) : List OrphanRec :=
  orphans.filter (fun o => o.toVersion == v)

/-- The integers `a, a+1, ..., b-1` (a Go `for v := a; v < b; v++` loop). -/
def intRange (a b : Int) : List Int :=
  (List.range (b - a).toNat).map (fun (i : Nat) => a + (i : Int))

/-- The callback of the per-version orphan traversal inside
`DeleteVersionsRange`: delete the orphan record; if its lifetime starts
after the predecessor delete the node record, uncache the node, and drop
the fast-node cache entry stored under the orphan's database key; otherwise
rewrite the orphan with its end shortened to the predecessor. -/
def rangeOrphanCb (predecessor : Int) (st : NodeDB) (o : OrphanRec) :
    NodeDB × Option String :=
  let st1 := { st with orphans := orphansDelete st.orphans o }
  if predecessor < o.fromVersion then
    let st2 := { st1 with nodes := st1.nodes.filter (fun n => !(n.hash == o.hash)) }
    let st3 := uncacheNode st2 o.hash
    (uncacheFastNode st3 (orphanDbKey o.toVersion o.fromVersion o.hash), none)
  else
    saveOrphan st1 o.hash o.fromVersion predecessor

/-- The per-version orphan traversal loop of `DeleteVersionsRange`: for
each version in `versions`, traverse the orphans of `orig` (the database
contents, unaffected by the pending batch writes) ending at that version
with `rangeOrphanCb`. -/
def rangeOrphanPhase (predecessor : Int) (orig : List OrphanRec)
    (st : NodeDB) (versions : List Int) : NodeDB × Option String :=
  goFold (fun st v => goFold (rangeOrphanCb predecessor) st (orphansAtVersion orig v))
    st versions

/-- `DeleteVersionsRange(fromVersion, toVersion)`. -/
def DeleteVersionsRange (s : NodeDB) (fromVersion toVersion : Int) :
    NodeDB × Option String :=
  if fromVersion ≥ toVersion then (s, some "toVersion must be greater than fromVersion")
  else if toVersion = 0 then (s, some "toVersion must be greater than 0")
  else
    let (s0, latest) := memoLatest s
    if latest < toVersion then (s0, some "cannot delete latest saved version")
    else
      let predecessor := getPreviousVersion s0 fromVersion
      if s0.versionReaders.any
          (fun vr => decide (vr.1 < toVersion) && decide (predecessor < vr.1) && vr.2 != 0) then
        (s0, some "unable to delete version with active readers")
      else
        match rangeOrphanPhase predecessor s0.orphans s0 (intRange fromVersion toVersion) with
        | (st, some e) => (st, some e)
        | (st, none) =>
          let fnc := st.fastNodeCache.filter
            (fun f => !(decide (fromVersion ≤ f.versionLastUpdatedAt)
                        && decide (f.versionLastUpdatedAt < toVersion)))
          let rts := st.roots.filter
            (fun r => !(decide (toU fromVersion ≤ toU r.1) && decide (toU r.1 < toU toVersion)))
          ({ st with fastNodeCache := fnc, roots := rts }, none)

/-- The callback of the orphan traversal inside `deleteOrphans(version)`:
delete the orphan record; if the predecessor precedes the lifetime or the
lifetime is a single version, delete the node record and uncache it,
otherwise shorten the lifetime to end at the predecessor. -/
def deleteOrphansCb (predecessor : Int) (st : NodeDB) (o : OrphanRec) :
    NodeDB × Option String :=
  let st1 := { st with orphans := orphansDelete st.orphans o }
  if predecessor < o.fromVersion ∨ o.fromVersion = o.toVersion then
    let st2 := { st1 with nodes := st1.nodes.filter (fun n => !(n.hash == o.hash)) }
    (uncacheNode st2 o.hash, none)
  else
    saveOrphan st1 o.hash o.fromVersion predecessor

/-- `deleteOrphans(version)`. -/
def deleteOrphans (s : NodeDB) (version : Int) : NodeDB × Option String :=
  let predecessor := getPreviousVersion s version
  goFold (deleteOrphansCb predecessor) s (orphansAtVersion s.orphans version)

/-- `deleteRoot(version, checkLatestVersion)`: refuses to delete the latest
version when asked to check; deletes only the root record, never a node
record. -/
def deleteRoot (s : NodeDB) (version : Int) (checkLatestVersion : Bool) :
    NodeDB × Option String :=
  let (s0, latest) := memoLatest s
  if checkLatestVersion = true ∧ version = latest then
    (s0, some "Tried to delete latest version")
  else
    ({ s0 with roots := s0.roots.filter (fun r => !(r.1 == version)) }, none)

/-- `DeleteVersion(version, checkLatestVersion)`: refuse when the version
has active readers, otherwise `deleteOrphans` then `deleteRoot`. -/
def DeleteVersion (s : NodeDB) (version : Int) (checkLatestVersion : Bool) :
    NodeDB × Option String :=
  if readersGet s.versionReaders version > 0 then
    (s, some "unable to delete version, it has active readers")
  else
    match deleteOrphans s version with
    | (st, some e) => (st, some e)
    | (st, none) => deleteRoot st version checkLatestVersion

/-- `DeleteFastNode(key)`: batch-delete the fast-node record and evict the
key from the fast-node cache. -/
def DeleteFastNode (s : NodeDB) (key : Bytes) : NodeDB :=
  uncacheFastNode { s with fastNodes := s.fastNodes.filter (fun f => !(f.key == key)) } key

/-- `deleteNodesFrom(version, hash)`, computed as the list of node hashes
that get batch-deleted (and uncached): recursively descend through the child
hashes, then delete the node itself when its version is at least `version`.
All node lookups go to the database, which the pending batch deletions do
not affect, so they read the unmodified node store.  `none` models either
fuel exhaustion (the Go recursion terminates because hashes form a DAG) or
the `GetNode` panic on a missing node record. -/
def deleteNodesFromList (nodes : List NodeRec) (version : Int) :
    Nat → Bytes → Option (List Bytes)
  | 0, _ => none
  | fuel + 1, hash =>
    if hash.isEmpty then some []
    else
      match lookupNode nodes hash with
      | none => none
      | some node =>
        match (if node.leftHash.isEmpty then some []
               else deleteNodesFromList nodes version fuel node.leftHash) with
        | none => none
        | some dl =>
          match (if node.rightHash.isEmpty then some []
                 else deleteNodesFromList nodes version fuel node.rightHash) with
          | none => none
          | some dr =>
            some (dl ++ dr ++ (if version ≤ node.version then [hash] else []))

/-- The callback of the orphan traversal inside `DeleteVersionsFrom`:
orphans born at or after the version lose both the orphan record and the
node record; orphans ending at or after `version - 1` lose only the orphan
record. -/
def fromOrphanCb (version : Int) (st : NodeDB) (o : OrphanRec) : NodeDB :=
  if o.fromVersion ≥ version then
    { st with
        orphans := orphansDelete st.orphans o,
        nodes := st.nodes.filter (fun n => !(n.hash == o.hash)) }
  else if o.toVersion ≥ version - 1 then
    { st with orphans := orphansDelete st.orphans o }
  else st

/-- `DeleteVersionsFrom(version)`.  All traversals read the database, which
the pending batch writes do not affect, so the traversal lists are taken
from the initial store.  `none` propagates from `deleteNodesFromList`. -/
def DeleteVersionsFrom (fuel : Nat) (s : NodeDB) (version : Int) :
    Option (NodeDB × Option String) :=
  let (s0, latest) := memoLatest s
  if latest < version then some (s0, none)
  else
    match lookupRoot s0.roots latest with
    | none => some (s0, some "root for version not found")
    | some root =>
      if s0.versionReaders.any (fun vr => decide (vr.1 ≥ version) && vr.2 != 0) then
        some (s0, some "unable to delete version with active readers")
      else
        match deleteNodesFromList s0.nodes version fuel root with
        | none => none
        | some del =>
          let st1 := { s0 with
              nodes := s0.nodes.filter (fun n => !(del.contains n.hash)),
              nodeCache := s0.nodeCache.filter (fun h => !(del.contains h)) }
          let st2 := s0.orphans.foldl (fromOrphanCb version) st1
          let rts := st2.roots.filter
            (fun r => !(decide (toU version ≤ toU r.1) && decide (toU r.1 < toU (2 ^ 63 - 1))))
          let st3 := { st2 with roots := rts }
          let st4 := (s0.fastNodes.filter (fun f => version ≤ f.versionLastUpdatedAt)).foldl
              (fun acc f => DeleteFastNode acc f.key) st3
          some (st4, none)

/-! ## Proof assembler (`proof_ics23.go`)

`getNonMembershipProof`, `createExistenceProof`, `convertExistenceProof`,
`convertLeafOp` and `convertInnerOps` are embedded from
`src/proof_ics23.go`.  The tree operations they call — `GetWithIndex`,
`GetByIndex` and `GetWithProof` — live in the tree files of the
repository, which are not under `src/`; they are modelled from the spec
below.  An `ImmutableTree` is represented by its ordered sequence of
key-value leaves together with the range proof its traversal produces for
a key, which is the data those operations observe. -/

/-- One step of a root-to-leaf path (`proofInnerNode`): height, subtree
size, version, and the hashes of the two children (`[]` = absent). -/
structure PathStep where
  height : Int
  size : Int
  version : Int
  left : Bytes
  right : Bytes
deriving DecidableEq, Inhabited

/-- An ICS23 `InnerOp`, reduced to its prefix and suffix bytes (`pfx` and
`suffix` stand for the Go fields `Prefix` and `Suffix`; the hash op is
always SHA-256). -/
structure InnerOp where
  pfx : Bytes
  suffix : Bytes
deriving DecidableEq

/-- Loop of `binary.PutUvarint`; the fuel argument makes the recursion
structural and is always sufficient. -/
def uvarintAux : Nat → Nat → List Nat
  | 0, _ => []
  | fuel + 1, n => if n < 128 then [n] else (n % 128 + 128) :: uvarintAux fuel (n / 128)

/-- `binary.PutUvarint`: unsigned LEB128. -/
def uvarint (n : Nat) : List Nat := uvarintAux (n + 1) n

/-- The zigzag transform of `binary.PutVarint` on an `int64`. -/
def zigzag (x : Int) : Nat :=
  (if 0 ≤ x then 2 * x else -(2 * x) - 1).toNat

/-- `convertVarIntToBytes`. -/
def convertVarIntToBytes (orig : Int) : Bytes := uvarint (zigzag orig)

/-- `lengthByte`, the SHA-256 length prefix `0x20`. -/
def lengthByte : Nat := 0x20

/-- The `InnerOp` built by one iteration of the loop in `convertInnerOps`:
prefix `varint(height) ++ varint(size) ++ varint(version)`, then branch on
whether the left child hash is present, appending to the prefix and setting
the suffix as in the Go code. -/
def mkInnerOp (step : PathStep) : InnerOp :=
  let p1 := convertVarIntToBytes step.height
  let p2 := p1 ++ convertVarIntToBytes step.size
  let p3 := p2 ++ convertVarIntToBytes step.version
  if step.left.length > 0 then
    { pfx := ((p3 ++ [lengthByte]) ++ step.left) ++ [lengthByte], suffix := [] }
  else
    { pfx := p3 ++ [lengthByte], suffix := lengthByte :: step.right }

/-- The loop of `convertInnerOps`, counting the index down from
`path.length - 1` to 0 and appending one `InnerOp` per step. -/
def convertInnerOpsAux (path : List PathStep) : Nat → List InnerOp
  | 0 => []
  | n + 1 => mkInnerOp (path.getD n default) :: convertInnerOpsAux path n

/-- `convertInnerOps(path)`: emit one `InnerOp` per path step, iterating
from the leaf end of the path towards the root. -/
def convertInnerOps (path : List PathStep) : List InnerOp :=
  convertInnerOpsAux path path.length

/-- A `proofLeafNode` of a range proof: the leaf key, its value hash, and
the version at which the leaf was written. -/
structure ProofLeaf where
  key : Bytes
  valueHash : Bytes
  version : Int
deriving DecidableEq, Inhabited

/-- A `RangeProof` as `convertExistenceProof` reads it: the left path of
inner steps and the proven leaves. -/
structure RangeProof where
  leftPath : List PathStep
  leaves : List ProofLeaf
deriving DecidableEq

/-- An ICS23 `LeafOp`, reduced to its prefix bytes (the hash op, value
prehash and length op are the constants SHA-256, SHA-256, VAR_PROTO). -/
structure LeafOp where
  pfx : Bytes
deriving DecidableEq

/-- `convertLeafOp(version)`: leaf prefix
`varint(0) ++ varint(1) ++ varint(version)`. -/
def convertLeafOp (version : Int) : LeafOp :=
  { pfx := (convertVarIntToBytes 0 ++ convertVarIntToBytes 1) ++ convertVarIntToBytes version }

/-- An ICS23 existence proof: the proven key and value, the leaf op, and
the inner path (leaf towards root). -/
structure ExistenceProof where
  key : Bytes
  value : Bytes
  leaf : LeafOp
  path : List InnerOp
deriving DecidableEq

/-- `convertExistenceProof(p, key, value)` (from `proof_ics23.go`): require
the range proof to carry exactly one leaf, then build the existence proof
from that leaf's version and the left path.  (`leaves.headD default` is
`p.Leaves[0]`, guarded by the length check.) -/
def convertExistenceProof (p : RangeProof) (key value : Bytes) :
    Except String ExistenceProof :=
  if p.leaves.length ≠ 1 then
    .error "existence proof requires RangeProof to have exactly one leaf"
  else
    .ok { key := key, value := value,
          leaf := convertLeafOp (p.leaves.headD default).version,
          path := convertInnerOps p.leftPath }

/-- Byte-wise lexicographic `<` on byte strings (tree key order). -/
def bytesLt : Bytes → Bytes → Bool
  | [], [] => false
  | [], _ :: _ => true
  | _ :: _, [] => false
  | a :: as, b :: bs => if a < b then true else if b < a then false else bytesLt as bs

/-- Modelled from the spec: an immutable tree snapshot, represented by its
key-value pairs in leaf (key) order, together with the range proof its
traversal produces for a queried key (a left path of inner steps and a
single leaf). -/
structure ImmutableTree where
  pairs : List (Bytes × Bytes)
  rangeProof : Bytes → RangeProof

/-- Modelled from the spec: tree point lookup (`nil` result encoded as
`none`). -/
def treeGet (t : ImmutableTree) (key : Bytes) : Option Bytes :=
  (t.pairs.find? (fun p => p.1 == key)).map (fun p => p.2)

/-- Modelled from the spec: `GetWithIndex(key)` returns the index where
`key` would be inserted (its own index when present) together with its
value, `none` when absent. -/
def GetWithIndex (t : ImmutableTree) (key : Bytes) : Nat × Option Bytes :=
  (t.pairs.countP (fun p => bytesLt p.1 key), treeGet t key)

/-- Modelled from the spec: `GetByIndex(index)` returns the key-value pair
of the index-th leaf, or `none` (Go: `nil, nil`) out of range. -/
def GetByIndex (t : ImmutableTree) (index : Nat) : Option (Bytes × Bytes) :=
  t.pairs[index]?

/-- Modelled from the spec: `GetWithProof(key)` asks the tree for the value
under `key` (`none` when absent) and the range proof its traversal
produces for `key`. -/
def GetWithProof (t : ImmutableTree) (key : Bytes) : Option Bytes × RangeProof :=
  (treeGet t key, t.rangeProof key)

/-- `createExistenceProof(tree, key)` (from `proof_ics23.go`): get value
and range proof from the tree; a missing value is an error; otherwise
convert with `convertExistenceProof`. -/
def createExistenceProof (t : ImmutableTree) (key : Bytes) :
    Except String ExistenceProof :=
  match GetWithProof t key with
  | (none, _) => .error "cannot create ExistanceProof when Key not in State"
  | (some value, proof) => convertExistenceProof proof key value

/-- An ICS23 non-existence proof: the queried key and the optional left and
right neighbor existence proofs. -/
structure NonExistenceProof where
  key : Bytes
  left : Option ExistenceProof
  right : Option ExistenceProof
deriving DecidableEq

/-- `getNonMembershipProof(key)` (from `proof_ics23.go`): requires the key
to be absent; builds the left neighbor proof when the insertion index is at
least 1 and the right neighbor proof when a key exists at the insertion
index. -/
def getNonMembershipProof (t : ImmutableTree) (key : Bytes) :
    Except String NonExistenceProof :=
  match GetWithIndex t key with
  | (_, some _) => .error "cannot create NonExistanceProof when Key in State"
  | (idx, none) =>
    let leftStep : Except String (Option ExistenceProof) :=
      if 1 ≤ idx then
        let leftkey := ((GetByIndex t (idx - 1)).map (fun p => p.1)).getD []
        match createExistenceProof t leftkey with
        | .ok ep => .ok (some ep)
        | .error e => .error e
      else .ok none
    match leftStep with
    | .error e => .error e
    | .ok l =>
      match (GetByIndex t idx).map (fun p => p.1) with
      | some rightkey =>
        match createExistenceProof t rightkey with
        | .ok ep => .ok { key := key, left := l, right := some ep }
        | .error e => .error e
      | none => .ok { key := key, left := l, right := none }

/-! ## Auxiliary pure forms and sample states -/

/-- The state part of `rangeOrphanCb` (which never reports an error: in its
rewrite branch `fromVersion ≤ predecessor` holds, so `saveOrphan` cannot
panic); proven equal to it in `rangeOrphanCb_eq_step`. -/
def rangeOrphanStep (predecessor : Int) (st : NodeDB) (o : OrphanRec) : NodeDB :=
  let st1 := { st with orphans := orphansDelete st.orphans o }
  if predecessor < o.fromVersion then
    let st2 := { st1 with nodes := st1.nodes.filter (fun n => !(n.hash == o.hash)) }
    uncacheFastNode (uncacheNode st2 o.hash) (orphanDbKey o.toVersion o.fromVersion o.hash)
  else
    { st1 with orphans := orphansSet st1.orphans ⟨predecessor, o.fromVersion, o.hash⟩ }

/-- The state part of `deleteOrphansCb` (which never reports an error for
the same reason); proven equal to it in `deleteOrphansCb_eq_step`. -/
def deleteOrphansStep (predecessor : Int) (st : NodeDB) (o : OrphanRec) : NodeDB :=
  let st1 := { st with orphans := orphansDelete st.orphans o }
  if predecessor < o.fromVersion ∨ o.fromVersion = o.toVersion then
    uncacheNode { st1 with nodes := st1.nodes.filter (fun n => !(n.hash == o.hash)) } o.hash
  else
    { st1 with orphans := orphansSet st1.orphans ⟨predecessor, o.fromVersion, o.hash⟩ }

/-- `newNodeDB` over an empty backing store: empty record stores, the
default storage version, and the sentinel `latestVersion = 0`. -/
def newNodeDB : NodeDB :=
  { nodes := [], orphans := [], roots := [], fastNodes := [],
    storageVersion := defaultStorageVersionValue, latestVersion := 0,
    nodeCache := [], fastNodeCache := [], versionReaders := [] }

/-- Sample state for `DeleteVersionsRange`: versions 1..3, one orphan
created and displaced at version 2 whose node has user key `[5]`, and a
fast-node cache entry for that user key (last updated at version 1). -/
def rangeSample : NodeDB :=
  { nodes := [{ hash := [9], key := [5], version := 2, leftHash := [], rightHash := [] }],
    orphans := [{ toVersion := 2, fromVersion := 2, hash := [9] }],
    roots := [(1, [1]), (2, [2]), (3, [3])],
    fastNodes := [],
    storageVersion := defaultStorageVersionValue, latestVersion := 3,
    nodeCache := [[9]],
    fastNodeCache := [{ key := [5], value := [7], versionLastUpdatedAt := 1 }],
    versionReaders := [] }

/-- Sample state for `DeleteVersionsFrom`: versions 1..3, an orphan that
predates version 3 (its node must be kept) and an orphan born at version 3
(its node must go). -/
def fromSample : NodeDB :=
  { nodes := [{ hash := [9], key := [5], version := 3, leftHash := [], rightHash := [] },
              { hash := [8], key := [4], version := 1, leftHash := [], rightHash := [] }],
    orphans := [{ toVersion := 2, fromVersion := 1, hash := [8] },
                { toVersion := 3, fromVersion := 3, hash := [7] }],
    roots := [(1, [8]), (2, [8]), (3, [9])],
    fastNodes := [{ key := [5], value := [7], versionLastUpdatedAt := 3 }],
    storageVersion := defaultStorageVersionValue, latestVersion := 3,
    nodeCache := [], fastNodeCache := [], versionReaders := [] }

/-- Sample state with a single version 1 (the latest). -/
def oneVersionSample : NodeDB :=
  { nodes := [], orphans := [], roots := [(1, [1])], fastNodes := [],
    storageVersion := defaultStorageVersionValue, latestVersion := 1,
    nodeCache := [], fastNodeCache := [], versionReaders := [] }

/-- Sample state with `latestVersion = 100` and an aborted-upgrade storage
version string. -/
def upgradeSample : NodeDB :=
  { nodes := [], orphans := [], roots := [], fastNodes := [],
    storageVersion := "1.1.0-99", latestVersion := 100,
    nodeCache := [], fastNodeCache := [], versionReaders := [] }

/-- Sample two-step inner path: an inner step whose left child is present
followed by one whose right child is present. -/
def pathSample : List PathStep :=
  [{ height := 1, size := 2, version := 3, left := [7, 7], right := [] },
   { height := 0, size := 1, version := 3, left := [], right := [8] }]

/-- Sample two-leaf tree for non-membership queries. -/
def treeSample : ImmutableTree :=
  { pairs := [([1], [10]), ([3], [30])],
    rangeProof := fun k =>
      { leftPath := [], leaves := [{ key := k, valueHash := [], version := 1 }] } }

/-- The storage-version string a successful `setFastStorageVersionToBatch`
installs: the kept part, the delimiter, and the decimal latest version. -/
def newFastVersionString (s : NodeDB) (kept : String) : String :=
  kept ++ fastStorageVersionDelimiter ++ itoa (getLatestVersion s)

/-- The state `setFastStorageVersionToBatch` leaves after a successful
batch write. -/
def setFastOkState (s : NodeDB) (kept : String) : NodeDB :=
  { s with latestVersion := getLatestVersion s, storageVersion := newFastVersionString s kept }

/-- The state `setFastStorageVersionToBatch` leaves after a failed batch
write: only the memoised latest version, the string is unchanged. -/
def setFastFailState (s : NodeDB) : NodeDB :=
  { s with latestVersion := getLatestVersion s }

/-- The state of a `DeleteVersionsFrom` run after the node-deletion phase:
the hashes on `del` (computed by `deleteNodesFromList`) are deleted from
the node store and evicted from the node cache, and the latest version is
memoised. -/
def dvfBase (s : NodeDB) (del : List Bytes) : NodeDB :=
  { s with
      latestVersion := getLatestVersion s,
      nodes := s.nodes.filter (fun n => !(del.contains n.hash)),
      nodeCache := s.nodeCache.filter (fun h => !(del.contains h)) }

/-- The state of `dvfResult` after the orphan traversal. -/
def dvfAfterOrphans (s : NodeDB) (version : Int) (del : List Bytes) : NodeDB :=
  s.orphans.foldl (fromOrphanCb version) (dvfBase s del)

/-- The state a successful `DeleteVersionsFrom(version)` run leaves: the
node-deletion phase, the orphan traversal, the root deletions at and above
`version`, and the fast-node deletions at or above `version`. -/
def dvfResult (s : NodeDB) (version : Int) (del : List Bytes) : NodeDB :=
  (s.fastNodes.filter (fun f => version ≤ f.versionLastUpdatedAt)).foldl
    (fun acc f => DeleteFastNode acc f.key)
    { dvfAfterOrphans s version del with
        roots := (dvfAfterOrphans s version del).roots.filter
          (fun r => !(decide (toU version ≤ toU r.1) && decide (toU r.1 < toU (2 ^ 63 - 1)))) }

/-- The state of a successful `DeleteVersionsRange` run after the
per-version orphan traversals. -/
def dvrOrphanPhase (s : NodeDB) (fromVersion toVersion : Int) : NodeDB :=
  (intRange fromVersion toVersion).foldl
    (fun st v => (orphansAtVersion s.orphans v).foldl
      (rangeOrphanStep (getPreviousVersion s fromVersion)) st)
    { s with latestVersion := getLatestVersion s }

/-- The state a successful `DeleteVersionsRange(fromVersion, toVersion)`
run leaves: process the orphans of each version in the window against the
predecessor of `fromVersion`, then evict the fast-node cache entries last
updated inside the window and delete the window's root records. -/
def dvrResult (s : NodeDB) (fromVersion toVersion : Int) : NodeDB :=
  { dvrOrphanPhase s fromVersion toVersion with
      fastNodeCache := (dvrOrphanPhase s fromVersion toVersion).fastNodeCache.filter
        (fun f => !(decide (fromVersion ≤ f.versionLastUpdatedAt)
                    && decide (f.versionLastUpdatedAt < toVersion))),
      roots := (dvrOrphanPhase s fromVersion toVersion).roots.filter
        (fun r => !(decide (toU fromVersion ≤ toU r.1) && decide (toU r.1 < toU toVersion))) }

/-! ## Helper lemmas -/

/-- `rangeOrphanCb` never errors: in its rewrite branch the orphan's
`fromVersion` is at most the predecessor, so `saveOrphan` cannot panic. -/
lemma rangeOrphanCb_eq_step (pred : Int) (st : NodeDB) (o : OrphanRec) :
    rangeOrphanCb pred st o = (rangeOrphanStep pred st o, none) := by
  by_cases h : pred < o.fromVersion
  · simp [rangeOrphanCb, rangeOrphanStep, h]
  · simp [rangeOrphanCb, rangeOrphanStep, saveOrphan, h,
      show ¬(o.fromVersion > pred) from by omega]

/-- `deleteOrphansCb` never errors, for the same reason. -/
lemma deleteOrphansCb_eq_step (pred : Int) (st : NodeDB) (o : OrphanRec) :
    deleteOrphansCb pred st o = (deleteOrphansStep pred st o, none) := by
  by_cases h : pred < o.fromVersion ∨ o.fromVersion = o.toVersion
  · simp only [deleteOrphansCb, deleteOrphansStep, if_pos h]
  · simp only [deleteOrphansCb, deleteOrphansStep, if_neg h, saveOrphan]
    rw [if_neg (by omega)]

/-- A `goFold` whose callback never errors is the plain fold of the state
parts. -/
lemma goFold_pure {α : Type} (f : NodeDB → α → NodeDB × Option String)
    (g : NodeDB → α → NodeDB) (hf : ∀ st a, f st a = (g st a, none)) :
    ∀ (l : List α) (st : NodeDB), goFold f st l = (l.foldl g st, none) := by
  intro l
  induction l with
  | nil => intro st; rfl
  | cons a as ih =>
    intro st
    simp only [goFold, hf st a, List.foldl_cons]
    exact ih (g st a)

/-! ## Claim C10: `DeleteVersionsFrom` with a future version is a no-op -/

/-- C10: when `latest_version < v`, `DeleteVersionsFrom(v)` returns success
immediately and deletes no node, orphan, root, or fast-node record and
evicts nothing from either cache (only the lazily computed latest-version
field is filled in). -/
theorem claim10_thm (fuel : Nat) (s : NodeDB) (v : Int)
    (h : getLatestVersion s < v) :
    ∃ s1, DeleteVersionsFrom fuel s v = some (s1, none) ∧
      s1.nodes = s.nodes ∧ s1.orphans = s.orphans ∧ s1.roots = s.roots ∧
      s1.fastNodes = s.fastNodes ∧ s1.nodeCache = s.nodeCache ∧
      s1.fastNodeCache = s.fastNodeCache := by
  refine ⟨{ s with latestVersion := getLatestVersion s }, ?_, rfl, rfl, rfl, rfl, rfl, rfl⟩
  unfold DeleteVersionsFrom memoLatest
  simp [h]

/-- Witness for C10 at a concrete state. -/
theorem claim10_witness :
    ∃ s1, DeleteVersionsFrom 0 newNodeDB 5 = some (s1, none) ∧
      s1.nodes = newNodeDB.nodes ∧ s1.orphans = newNodeDB.orphans ∧
      s1.roots = newNodeDB.roots ∧ s1.fastNodes = newNodeDB.fastNodes ∧
      s1.nodeCache = newNodeDB.nodeCache ∧
      s1.fastNodeCache = newNodeDB.fastNodeCache :=
  claim10_thm 0 newNodeDB 5 (by decide)

/-! ## Claim C9: reader counts never go negative -/

/-- C9: starting from the empty reader map, every per-version reader count
stays non-negative, and decrementing a version whose count is zero leaves
the count at zero. -/
theorem claim9_thm :
    (∀ (ops : List ReaderOp) (v : Int),
      (0 : Int) ≤ (readersGet (runReaderOps newNodeDB ops).versionReaders v : Int)) ∧
    (∀ (s : NodeDB) (v : Int), readersGet s.versionReaders v = 0 →
      readersGet (decrVersionReaders s v).versionReaders v = 0) := by
  constructor
  · intro ops v
    exact Int.natCast_nonneg _
  · intro s v h
    unfold decrVersionReaders
    simp [h]

/-- Witness for C9 at a concrete event sequence and state. -/
theorem claim9_witness :
    ((0 : Int) ≤ (readersGet
      (runReaderOps newNodeDB [ReaderOp.incr 3, ReaderOp.decr 3, ReaderOp.decr 3]).versionReaders
      3 : Int)) ∧
    readersGet (decrVersionReaders newNodeDB 3).versionReaders 3 = 0 :=
  ⟨claim9_thm.1 _ 3, claim9_thm.2 newNodeDB 3 (by decide)⟩

/-! ## Claim C6: `shouldForceFastStorageUpgrade` -/

/-- C6: `shouldForceFastStorageUpgrade()` is true iff the storage-version
string has exactly two dash-separated parts whose second part differs from
the decimal latest version; with `latest_version = 100` it is true for
`"1.1.0-99"` and false for `"1.1.0-100"`. -/
theorem claim6_thm :
    (∀ s : NodeDB, shouldForceFastStorageUpgrade s = true ↔
      ((splitOnDash s.storageVersion).length = 2 ∧
       (splitOnDash s.storageVersion).getD 1 "" ≠ itoa (getLatestVersion s))) ∧
    shouldForceFastStorageUpgrade upgradeSample = true ∧
    shouldForceFastStorageUpgrade { upgradeSample with storageVersion := "1.1.0-100" } = false := by
  refine ⟨?_, by decide, by decide⟩
  intro s
  unfold shouldForceFastStorageUpgrade
  by_cases h : (splitOnDash s.storageVersion).length = 2
  · simp [h, bne_iff_ne]
  · simp [h]

/-! ## Claim C8: `convertInnerOps` -/

/-- The loop emits exactly one `InnerOp` per counted index. -/
lemma convertInnerOpsAux_length (path : List PathStep) (n : Nat) :
    (convertInnerOpsAux path n).length = n := by
  induction n with
  | zero => rfl
  | succ n ih => simp [convertInnerOpsAux, ih]

/-- The `i`-th emitted `InnerOp` comes from the path step at the mirrored
index `n - 1 - i`. -/
lemma convertInnerOpsAux_getElem (path : List PathStep) :
    ∀ (n i : Nat), i < n →
      (convertInnerOpsAux path n)[i]? = some (mkInnerOp (path.getD (n - 1 - i) default)) := by
  intro n
  induction n with
  | zero => intro i h; omega
  | succ n ih =>
    intro i h
    cases i with
    | zero => simp [convertInnerOpsAux]
    | succ j =>
      have hj : j < n := by omega
      have harith : n + 1 - 1 - (j + 1) = n - 1 - j := by omega
      simp only [convertInnerOpsAux, List.getElem?_cons_succ, harith]
      exact ih j hj

/-- C8: `convertInnerOps` emits the path steps in reverse order, and each
`InnerOp` has prefix `varint(height) ++ varint(size) ++ varint(version)`
followed by `0x20 ++ Left ++ 0x20` with an empty suffix when the left child
hash is non-empty, and otherwise by `0x20` with suffix `0x20 ++ Right`. -/
theorem claim8_thm (path : List PathStep) (i : Nat) (step : PathStep)
    (hi : i < path.length) (hstep : path[path.length - 1 - i]? = some step) :
    (convertInnerOps path).length = path.length ∧
    (convertInnerOps path)[i]? = some (
      if 0 < step.left.length then
        { pfx := convertVarIntToBytes step.height ++ convertVarIntToBytes step.size ++
                 convertVarIntToBytes step.version ++ [lengthByte] ++ step.left ++ [lengthByte],
          suffix := [] }
      else
        { pfx := convertVarIntToBytes step.height ++ convertVarIntToBytes step.size ++
                 convertVarIntToBytes step.version ++ [lengthByte],
          suffix := [lengthByte] ++ step.right }) := by
  refine ⟨convertInnerOpsAux_length path path.length, ?_⟩
  rw [convertInnerOps, convertInnerOpsAux_getElem path path.length i hi]
  have hgetD : path.getD (path.length - 1 - i) default = step := by
    rw [List.getD_eq_getElem?_getD, hstep]
    rfl
  rw [hgetD]
  unfold mkInnerOp
  by_cases h : 0 < step.left.length
  · simp [h, List.append_assoc]
  · simp [h, List.append_assoc]

/-- Witness for C8 on the sample path: index 0 of the output is built from
the last path step. -/
theorem claim8_witness :
    (convertInnerOps pathSample).length = pathSample.length ∧
    (convertInnerOps pathSample)[0]? = some (
      if 0 < (PathStep.left { height := 0, size := 1, version := 3, left := [], right := [8] }).length then
        { pfx := convertVarIntToBytes 0 ++ convertVarIntToBytes 1 ++
                 convertVarIntToBytes 3 ++ [lengthByte] ++ [] ++ [lengthByte],
          suffix := [] }
      else
        { pfx := convertVarIntToBytes 0 ++ convertVarIntToBytes 1 ++
                 convertVarIntToBytes 3 ++ [lengthByte],
          suffix := [lengthByte] ++ [8] }) :=
  claim8_thm pathSample 0
    { height := 0, size := 1, version := 3, left := [], right := [8] }
    (by decide) (by decide)

/-- Witness for C6 at a concrete state. -/
theorem claim6_witness :
    shouldForceFastStorageUpgrade upgradeSample = true ↔
      ((splitOnDash upgradeSample.storageVersion).length = 2 ∧
       (splitOnDash upgradeSample.storageVersion).getD 1 ""
         ≠ itoa (getLatestVersion upgradeSample)) :=
  claim6_thm.1 upgradeSample

/-! ## Claim C7: `getNonMembershipProof` -/

/-- A key drawn from the tree's pair list has an existence proof whenever
its range proof carries exactly one leaf, and that proof records the
key. -/
lemma createExistenceProof_of_mem (t : ImmutableTree) (k : Bytes)
    (hleaf : (t.rangeProof k).leaves.length = 1)
    (h : ∃ p ∈ t.pairs, p.1 = k) :
    ∃ ep, createExistenceProof t k = .ok ep ∧ ExistenceProof.key ep = k := by
  obtain ⟨p, hp, hk⟩ := h
  have hsome : (t.pairs.find? (fun q => q.1 == k)).isSome := by
    rw [List.find?_isSome]
    exact ⟨p, hp, by simp [hk]⟩
  match hfind : t.pairs.find? (fun q => q.1 == k) with
  | none => rw [hfind] at hsome; simp at hsome
  | some q =>
    refine ⟨{ key := k, value := q.2,
              leaf := convertLeafOp ((t.rangeProof k).leaves.headD default).version,
              path := convertInnerOps (t.rangeProof k).leftPath }, ?_, rfl⟩
    simp [createExistenceProof, GetWithProof, treeGet, hfind,
      convertExistenceProof, hleaf]

/-- C7: assuming the tree's range proofs each carry exactly one leaf (as a
point query over a functioning tree produces), `getNonMembershipProof`
errors when the key is present; when the key is absent it returns a proof
whose `Key` is the queried key, whose `Left` is present iff the insertion
index is at least 1 (and then proves the key at index `idx - 1`), whose
`Right` is present iff a key exists at the insertion index (and then
proves that key), and at least one of `Left`/`Right` is present when the
tree is non-empty. -/
theorem claim7_thm (t : ImmutableTree) (key : Bytes)
    (hleaves : ∀ k, (t.rangeProof k).leaves.length = 1) :
    (∀ v, treeGet t key = some v →
      getNonMembershipProof t key = .error "cannot create NonExistanceProof when Key in State") ∧
    (treeGet t key = none →
      ∃ p, getNonMembershipProof t key = .ok p ∧
        p.key = key ∧
        (p.left.isSome ↔ 1 ≤ (GetWithIndex t key).1) ∧
        (∀ ep, p.left = some ep →
          ∃ pr, GetByIndex t ((GetWithIndex t key).1 - 1) = some pr ∧ ep.key = pr.1) ∧
        (p.right.isSome ↔ (∃ pr, GetByIndex t (GetWithIndex t key).1 = some pr)) ∧
        (∀ ep, p.right = some ep →
          ∃ pr, GetByIndex t (GetWithIndex t key).1 = some pr ∧ ep.key = pr.1) ∧
        (t.pairs ≠ [] → p.left.isSome ∨ p.right.isSome)) := by
  constructor
  · intro v hv
    simp [getNonMembershipProof, GetWithIndex, hv]
  · intro habs
    have hcount : t.pairs.countP (fun p => bytesLt p.1 key) ≤ t.pairs.length :=
      List.countP_le_length _
    simp only [getNonMembershipProof, GetWithIndex, habs]
    by_cases hidx : 1 ≤ t.pairs.countP (fun p => bytesLt p.1 key)
    · -- a left neighbor exists
      have hlt : t.pairs.countP (fun p => bytesLt p.1 key) - 1 < t.pairs.length := by omega
      have hget : GetByIndex t (t.pairs.countP (fun p => bytesLt p.1 key) - 1) =
          some (t.pairs[t.pairs.countP (fun p => bytesLt p.1 key) - 1]) :=
        List.getElem?_eq_getElem hlt
      obtain ⟨epl, hvl, hkeyl⟩ := createExistenceProof_of_mem t
          (t.pairs[t.pairs.countP (fun p => bytesLt p.1 key) - 1]).1
          (hleaves _) ⟨_, List.getElem_mem hlt, rfl⟩
      simp only [if_pos hidx, GetByIndex] at *
      rw [List.getElem?_eq_getElem hlt]
      simp only [Option.map_some', Option.getD_some, hvl]
      by_cases hr : t.pairs.countP (fun p => bytesLt p.1 key) < t.pairs.length
      · have hget2 : t.pairs[t.pairs.countP (fun p => bytesLt p.1 key)]? =
            some (t.pairs[t.pairs.countP (fun p => bytesLt p.1 key)]) :=
          List.getElem?_eq_getElem hr
        obtain ⟨epr, hvr, hkeyr⟩ := createExistenceProof_of_mem t
            (t.pairs[t.pairs.countP (fun p => bytesLt p.1 key)]).1
            (hleaves _) ⟨_, List.getElem_mem hr, rfl⟩
        rw [hget2]
        simp only [Option.map_some', hvr]
        refine ⟨_, rfl, rfl, ?_, ?_, ?_, ?_, ?_⟩
        · simp [hidx]
        · intro ep hep
          refine ⟨_, rfl, ?_⟩
          simp only [Option.some.injEq] at hep
          exact hep ▸ hkeyl
        · simp [List.getElem?_eq_getElem hr]
        · intro ep hep
          refine ⟨_, rfl, ?_⟩
          simp only [Option.some.injEq] at hep
          exact hep ▸ hkeyr
        · intro _
          simp
      · have hnone : t.pairs[t.pairs.countP (fun p => bytesLt p.1 key)]? = none := by
          rw [List.getElem?_eq_none_iff]
          omega
        rw [hnone]
        simp only [Option.map_none']
        refine ⟨_, rfl, rfl, ?_, ?_, ?_, ?_, ?_⟩
        · simp [hidx]
        · intro ep hep
          refine ⟨_, rfl, ?_⟩
          simp only [Option.some.injEq] at hep
          exact hep ▸ hkeyl
        · simp [hnone, GetByIndex]
        · intro ep hep
          simp at hep
        · intro _
          simp
    · -- no left neighbor: the insertion index is 0
      have hidx0 : t.pairs.countP (fun p => bytesLt p.1 key) = 0 := by omega
      simp only [if_neg hidx]
      by_cases hr : t.pairs.countP (fun p => bytesLt p.1 key) < t.pairs.length
      · obtain ⟨epr, hvr, hkeyr⟩ := createExistenceProof_of_mem t
            (t.pairs[t.pairs.countP (fun p => bytesLt p.1 key)]).1
            (hleaves _) ⟨_, List.getElem_mem hr, rfl⟩
        simp only [GetByIndex]
        rw [List.getElem?_eq_getElem hr]
        simp only [Option.map_some', hvr]
        refine ⟨_, rfl, rfl, ?_, ?_, ?_, ?_, ?_⟩
        · simp [hidx0]
        · intro ep hep
          simp at hep
        · simp [List.getElem?_eq_getElem hr]
        · intro ep hep
          refine ⟨_, rfl, ?_⟩
          simp only [Option.some.injEq] at hep
          exact hep ▸ hkeyr
        · intro _
          simp
      · have hempty : t.pairs.length = 0 := by omega
        have hnone : t.pairs[t.pairs.countP (fun p => bytesLt p.1 key)]? = none := by
          rw [List.getElem?_eq_none_iff]
          omega
        simp only [GetByIndex]
        rw [hnone]
        simp only [Option.map_none']
        refine ⟨_, rfl, rfl, ?_, ?_, ?_, ?_, ?_⟩
        · simp [hidx0]
        · intro ep hep
          simp at hep
        · simp [hnone, GetByIndex]
        · intro ep hep
          simp at hep
        · intro hne
          exact absurd (List.length_eq_zero.mp hempty) hne

/-- Witness for C7 on the sample tree with an absent middle key. -/
theorem claim7_witness :
    getNonMembershipProof treeSample [2] =
      .ok { key := [2],
            left := some { key := [1], value := [10],
                           leaf := convertLeafOp 1, path := [] },
            right := some { key := [3], value := [30],
                            leaf := convertLeafOp 1, path := [] } } := by
  have h := (claim7_thm treeSample [2] (fun _ => rfl)).2 (by decide)
  obtain ⟨p, hp, _⟩ := h
  rw [hp]
  rw [show getNonMembershipProof treeSample [2] =
      .ok { key := [2],
            left := some { key := [1], value := [10],
                           leaf := convertLeafOp 1, path := [] },
            right := some { key := [3], value := [30],
                            leaf := convertLeafOp 1, path := [] } } from by decide] at hp
  simp at hp
  rw [hp]

/-! ## Claim C4: `saveRoot` -/

/-- After overwriting-or-appending a root record, looking the version up
finds the new hash. -/
lemma lookupRoot_rootsSet (v : Int) (h : Bytes) :
    ∀ roots : List (Int × Bytes), lookupRoot (rootsSet roots v h) v = some h := by
  intro roots
  unfold rootsSet
  by_cases hany : roots.any (fun r => r.1 == v) = true
  · rw [if_pos hany]
    induction roots with
    | nil => cases hany
    | cons r rs ih =>
      by_cases hr : r.1 = v
      · simp [lookupRoot, List.find?, hr]
      · have hne : ((r.1 == v) : Bool) = false := by simp [hr]
        have hany' : rs.any (fun r => r.1 == v) = true := by
          rcases List.any_eq_true.mp hany with ⟨x, hx, hpx⟩
          rcases List.mem_cons.mp hx with h1 | h2
          · rw [h1] at hpx; rw [hpx] at hne; cases hne
          · exact List.any_eq_true.mpr ⟨x, h2, hpx⟩
        simpa [lookupRoot, List.find?, hne] using ih hany'
  · rw [if_neg hany]
    induction roots with
    | nil => simp [lookupRoot, List.find?]
    | cons r rs ih =>
      have hne : ((r.1 == v) : Bool) = false := by
        by_cases hr : r.1 = v
        · exact absurd (List.any_eq_true.mpr ⟨r, List.mem_cons_self r rs, by simp [hr]⟩) hany
        · simp [hr]
      have hany' : ¬ rs.any (fun r => r.1 == v) = true := by
        intro hc
        rcases List.any_eq_true.mp hc with ⟨x, hx, hpx⟩
        exact hany (List.any_eq_true.mpr ⟨x, List.mem_cons_of_mem r hx, hpx⟩)
      simpa [lookupRoot, List.find?, hne] using ih hany'

/-- C4 (amended): a non-consecutive version is refused when a version has
been saved; with no saved version any version is accepted; on success the
root record is written and `latestVersion` is raised to `version` exactly
when `version` exceeds it (so any positive initial version becomes the
latest, while a non-positive initial version leaves it at 0). -/
theorem claim4_thm (s : NodeDB) (hash : Bytes) (version : Int) :
    (getLatestVersion s > 0 → version ≠ getLatestVersion s + 1 →
      saveRoot s hash version =
        ({ s with latestVersion := getLatestVersion s }, some "must save consecutive versions")) ∧
    (getLatestVersion s = 0 →
      ∃ s1, saveRoot s hash version = (s1, none) ∧
        lookupRoot s1.roots version = some hash ∧
        s1.latestVersion = (if 0 < version then version else 0)) ∧
    (getLatestVersion s > 0 → version = getLatestVersion s + 1 →
      ∃ s1, saveRoot s hash version = (s1, none) ∧
        lookupRoot s1.roots version = some hash ∧
        s1.latestVersion = version) := by
  refine ⟨?_, ?_, ?_⟩
  · intro hpos hne
    unfold saveRoot memoLatest
    dsimp only
    rw [if_pos ⟨hpos, hne⟩]
  · intro h0
    refine ⟨{ s with
        roots := rootsSet s.roots version hash,
        latestVersion := if getLatestVersion s < version then version else getLatestVersion s },
      ?_, ?_, ?_⟩
    · unfold saveRoot memoLatest
      dsimp only
      rw [if_neg (by rw [h0]; omega)]
    · exact lookupRoot_rootsSet version hash s.roots
    · show (if getLatestVersion s < version then version else getLatestVersion s) = _
      rw [h0]
  · intro hpos heq
    refine ⟨{ s with
        roots := rootsSet s.roots version hash,
        latestVersion := if getLatestVersion s < version then version else getLatestVersion s },
      ?_, ?_, ?_⟩
    · unfold saveRoot memoLatest
      dsimp only
      rw [if_neg (by omega)]
    · exact lookupRoot_rootsSet version hash s.roots
    · show (if getLatestVersion s < version then version else getLatestVersion s) = version
      rw [if_pos (by omega)]

/-- Counterexample to C4 as stated: with no saved version, `saveRoot` at
version `-5` succeeds and writes the root record, but `latest_version`
remains 0 instead of being updated to `-5`. -/
theorem claim4_counterexample :
    getLatestVersion newNodeDB = 0 ∧
    (saveRoot newNodeDB [1] (-5)).2 = none ∧
    lookupRoot (saveRoot newNodeDB [1] (-5)).1.roots (-5) = some [1] ∧
    (saveRoot newNodeDB [1] (-5)).1.latestVersion = 0 ∧
    getLatestVersion (saveRoot newNodeDB [1] (-5)).1 = 0 := by
  decide

/-- Witness for C4 at concrete states: an initial save at version 7 and a
consecutive save of version 2 over version 1. -/
theorem claim4_witness :
    (∃ s1, saveRoot newNodeDB [1] 7 = (s1, none) ∧
      lookupRoot s1.roots 7 = some [1] ∧
      s1.latestVersion = (if (0 : Int) < 7 then 7 else 0)) ∧
    (∃ s1, saveRoot oneVersionSample [2] 2 = (s1, none) ∧
      lookupRoot s1.roots 2 = some [2] ∧
      s1.latestVersion = 2) :=
  ⟨(claim4_thm newNodeDB [1] 7).2.1 (by decide),
   (claim4_thm oneVersionSample [2] 2).2.2 (by decide) (by decide)⟩

/-! ## Claim C5: `setFastStorageVersionToBatch` -/

/-- C5 (amended): when the stored string is already fast (not below
`"1.1.0"`) and splits into more than two parts the call fails with
`errInvalidFastStorageVersion` and changes nothing; otherwise the new
string is the first part of the old string (already fast) or `"1.1.0"`
(legacy), followed by `-` and the decimal latest version; the in-memory
string is updated exactly when the batch write succeeds. -/
theorem claim5_thm (s : NodeDB) (setOk : Bool) :
    (goStrLt s.storageVersion fastStorageVersionValue = false →
      (splitOnDash s.storageVersion).length > 2 →
      setFastStorageVersionToBatch s setOk = (s, some errInvalidFastStorageVersion)) ∧
    (goStrLt s.storageVersion fastStorageVersionValue = false →
      (splitOnDash s.storageVersion).length ≤ 2 →
      setFastStorageVersionToBatch s setOk =
        (if setOk then (setFastOkState s ((splitOnDash s.storageVersion).headD ""), none)
         else (setFastFailState s, some "batch set failed"))) ∧
    (goStrLt s.storageVersion fastStorageVersionValue = true →
      setFastStorageVersionToBatch s setOk =
        (if setOk then (setFastOkState s fastStorageVersionValue, none)
         else (setFastFailState s, some "batch set failed"))) := by
  refine ⟨?_, ?_, ?_⟩
  · intro hfast hlen
    unfold setFastStorageVersionToBatch
    rw [if_neg (by rw [hfast]; exact Bool.false_ne_true)]
    rw [if_pos hlen]
  · intro hfast hlen
    unfold setFastStorageVersionToBatch
    rw [if_neg (by rw [hfast]; exact Bool.false_ne_true)]
    rw [if_neg (by omega)]
    cases setOk
    · rw [if_neg Bool.false_ne_true, if_neg Bool.false_ne_true]
      rfl
    · rw [if_pos rfl, if_pos rfl]
      rfl
  · intro hlegacy
    unfold setFastStorageVersionToBatch
    rw [if_pos hlegacy]
    cases setOk
    · rw [if_neg Bool.false_ne_true, if_neg Bool.false_ne_true]
      rfl
    · rw [if_pos rfl, if_pos rfl]
      rfl

/-- Counterexample to C5 as stated: the stored string `"1.0.0-1-2"` splits
into three parts, yet the call succeeds (it is below `"1.1.0"`, so the
legacy branch runs and never checks the part count). -/
theorem claim5_counterexample :
    (splitOnDash (NodeDB.storageVersion { newNodeDB with storageVersion := "1.0.0-1-2" })).length > 2 ∧
    (setFastStorageVersionToBatch { newNodeDB with storageVersion := "1.0.0-1-2" } true).2 = none ∧
    (setFastStorageVersionToBatch { newNodeDB with storageVersion := "1.0.0-1-2" } true).1.storageVersion
      = "1.1.0-0" := by
  decide

/-- Witness for C5 at concrete states: the three-part fast string fails
(spec scenario 4), a fast two-part string is rebuilt from its first part,
and a write failure leaves the string unchanged. -/
theorem claim5_witness :
    setFastStorageVersionToBatch { upgradeSample with storageVersion := "1.1.0-1-2" } true
      = ({ upgradeSample with storageVersion := "1.1.0-1-2" }, some errInvalidFastStorageVersion) ∧
    setFastStorageVersionToBatch upgradeSample true
      = (if true then (setFastOkState upgradeSample ((splitOnDash upgradeSample.storageVersion).headD ""), none)
         else (setFastFailState upgradeSample, some "batch set failed")) ∧
    setFastStorageVersionToBatch upgradeSample false
      = (if false then (setFastOkState upgradeSample ((splitOnDash upgradeSample.storageVersion).headD ""), none)
         else (setFastFailState upgradeSample, some "batch set failed")) :=
  ⟨(claim5_thm { upgradeSample with storageVersion := "1.1.0-1-2" } true).1 (by decide) (by decide),
   (claim5_thm upgradeSample true).2.1 (by decide) (by decide),
   (claim5_thm upgradeSample false).2.1 (by decide) (by decide)⟩

/-! ## Claim C3: `DeleteVersion` -/

/-- `deleteOrphans` never errors and equals the pure fold of its step. -/
lemma deleteOrphans_eq (s : NodeDB) (v : Int) :
    deleteOrphans s v =
      ((orphansAtVersion s.orphans v).foldl
        (deleteOrphansStep (getPreviousVersion s v)) s, none) := by
  unfold deleteOrphans
  exact goFold_pure _ _ (deleteOrphansCb_eq_step (getPreviousVersion s v)) _ s

/-- One orphan-deletion step touches only the orphan store, the node store
and the node cache. -/
lemma deleteOrphansStep_frame (pred : Int) (st : NodeDB) (o : OrphanRec) :
    (deleteOrphansStep pred st o).roots = st.roots ∧
    (deleteOrphansStep pred st o).latestVersion = st.latestVersion ∧
    (deleteOrphansStep pred st o).versionReaders = st.versionReaders ∧
    (deleteOrphansStep pred st o).fastNodes = st.fastNodes ∧
    (deleteOrphansStep pred st o).fastNodeCache = st.fastNodeCache := by
  by_cases h : pred < o.fromVersion ∨ o.fromVersion = o.toVersion <;>
    simp [deleteOrphansStep, uncacheNode, h]

/-- The orphan-deletion fold touches only the orphan store, the node store
and the node cache. -/
lemma foldl_deleteOrphansStep_frame (pred : Int) :
    ∀ (l : List OrphanRec) (st : NodeDB),
      ((l.foldl (deleteOrphansStep pred) st).roots = st.roots ∧
       (l.foldl (deleteOrphansStep pred) st).latestVersion = st.latestVersion ∧
       (l.foldl (deleteOrphansStep pred) st).versionReaders = st.versionReaders ∧
       (l.foldl (deleteOrphansStep pred) st).fastNodes = st.fastNodes ∧
       (l.foldl (deleteOrphansStep pred) st).fastNodeCache = st.fastNodeCache) := by
  intro l
  induction l with
  | nil => intro st; exact ⟨rfl, rfl, rfl, rfl, rfl⟩
  | cons o os ih =>
    intro st
    have hstep := deleteOrphansStep_frame pred st o
    have hrest := ih (deleteOrphansStep pred st o)
    simp only [List.foldl_cons]
    exact ⟨hrest.1.trans hstep.1, hrest.2.1.trans hstep.2.1,
      hrest.2.2.1.trans hstep.2.2.1, hrest.2.2.2.1.trans hstep.2.2.2.1,
      hrest.2.2.2.2.trans hstep.2.2.2.2⟩

/-- `getLatestVersion` depends only on the root store and the cached
field. -/
lemma getLatestVersion_congr (a b : NodeDB)
    (h1 : a.roots = b.roots) (h2 : a.latestVersion = b.latestVersion) :
    getLatestVersion a = getLatestVersion b := by
  unfold getLatestVersion getPreviousVersion
  rw [h1, h2]

/-- Deleting the root record of a version makes its lookup fail. -/
lemma lookupRoot_filter_self (v : Int) :
    ∀ roots : List (Int × Bytes),
      lookupRoot (roots.filter (fun r => !(r.1 == v))) v = none := by
  intro roots
  induction roots with
  | nil => rfl
  | cons r rs ih =>
    by_cases hr : r.1 = v
    · rw [List.filter_cons, if_neg (by simp [hr])]
      exact ih
    · rw [List.filter_cons, if_pos (by simp [hr])]
      unfold lookupRoot
      rw [List.find?_cons_of_neg _ (by simp [hr])]
      exact ih

/-- C3 (amended): with active readers at `v` the call errors and deletes
nothing; otherwise the orphans ending at `v` are processed
(`deleteOrphans`) and then, unless `check_latest` is set and `v` is the
latest version (in which case an error is returned and the root record
remains), the root record for `v` is deleted while the root-deletion step
touches no node record and no cache. -/
theorem claim3_thm (s : NodeDB) (v : Int) (cl : Bool) :
    (readersGet s.versionReaders v > 0 →
      DeleteVersion s v cl = (s, some "unable to delete version, it has active readers")) ∧
    (readersGet s.versionReaders v = 0 →
      ∃ s1, deleteOrphans s v = (s1, none) ∧
        ((cl = true ∧ v = getLatestVersion s →
          DeleteVersion s v cl =
            ({ s1 with latestVersion := getLatestVersion s }, some "Tried to delete latest version")) ∧
         (¬(cl = true ∧ v = getLatestVersion s) →
          ∃ s2, DeleteVersion s v cl = (s2, none) ∧
            lookupRoot s2.roots v = none ∧
            s2.nodes = s1.nodes ∧ s2.nodeCache = s1.nodeCache ∧
            s2.fastNodes = s1.fastNodes ∧ s2.fastNodeCache = s1.fastNodeCache))) := by
  constructor
  · intro h
    unfold DeleteVersion
    rw [if_pos h]
  · intro h
    have hdo := deleteOrphans_eq s v
    have hframe := foldl_deleteOrphansStep_frame (getPreviousVersion s v)
      (orphansAtVersion s.orphans v) s
    refine ⟨_, hdo, ?_, ?_⟩
    · intro hcl
      unfold DeleteVersion
      rw [if_neg (by omega), hdo]
      unfold deleteRoot memoLatest
      dsimp only
      rw [if_pos ?_, getLatestVersion_congr _ s hframe.1 hframe.2.1]
      exact ⟨hcl.1, by rw [getLatestVersion_congr _ s hframe.1 hframe.2.1]; exact hcl.2⟩
    · intro hcl
      unfold DeleteVersion
      rw [if_neg (by omega), hdo]
      unfold deleteRoot memoLatest
      dsimp only
      rw [if_neg (by rw [getLatestVersion_congr _ s hframe.1 hframe.2.1]; exact hcl)]
      exact ⟨_, rfl, lookupRoot_filter_self v _, rfl, rfl, rfl, rfl⟩

/-- Counterexample to C3 as stated: with no readers, `check_latest = true`
and `v` the latest version, the call returns an error and the root record
of `v` is still present, although the claim promises its deletion whenever
the reader count is zero. -/
theorem claim3_counterexample :
    readersGet oneVersionSample.versionReaders 1 = 0 ∧
    DeleteVersion oneVersionSample 1 true
      = (oneVersionSample, some "Tried to delete latest version") ∧
    lookupRoot oneVersionSample.roots 1 = some [1] := by
  decide

/-- Witness for C3 at a concrete state: without `check_latest` the root of
version 1 is deleted and no node record is touched. -/
theorem claim3_witness :
    ∃ s1, deleteOrphans oneVersionSample 1 = (s1, none) ∧
      ∃ s2, DeleteVersion oneVersionSample 1 false = (s2, none) ∧
        lookupRoot s2.roots 1 = none ∧
        s2.nodes = s1.nodes ∧ s2.nodeCache = s1.nodeCache ∧
        s2.fastNodes = s1.fastNodes ∧ s2.fastNodeCache = s1.fastNodeCache := by
  obtain ⟨s1, hs1, _, hrest⟩ := (claim3_thm oneVersionSample 1 false).2 (by decide)
  exact ⟨s1, hs1, hrest (by simp)⟩

/-! ## Claim C2: `DeleteVersionsFrom` orphan handling -/

/-- An orphan surviving a `DeleteVersionsFrom` traversal step was already
present (the step only deletes orphan records). -/
lemma fromOrphanCb_orphans_sub (v : Int) (st : NodeDB) (o x : OrphanRec)
    (h : x ∈ (fromOrphanCb v st o).orphans) : x ∈ st.orphans := by
  unfold fromOrphanCb orphansDelete at h
  split at h
  · exact (List.mem_filter.mp h).1
  · split at h
    · exact (List.mem_filter.mp h).1
    · exact h

/-- A node surviving a `DeleteVersionsFrom` traversal step was already
present. -/
lemma fromOrphanCb_nodes_sub (v : Int) (st : NodeDB) (o : OrphanRec) (n : NodeRec)
    (h : n ∈ (fromOrphanCb v st o).nodes) : n ∈ st.nodes := by
  unfold fromOrphanCb at h
  split at h
  · exact (List.mem_filter.mp h).1
  · split at h
    · exact h
    · exact h

/-- Fold form of `fromOrphanCb_orphans_sub`. -/
lemma foldl_fromOrphanCb_orphans_sub (v : Int) :
    ∀ (l : List OrphanRec) (st : NodeDB) (x : OrphanRec),
      x ∈ (l.foldl (fromOrphanCb v) st).orphans → x ∈ st.orphans := by
  intro l
  induction l with
  | nil => intro st x h; exact h
  | cons a as ih =>
    intro st x h
    exact fromOrphanCb_orphans_sub v st a x (ih (fromOrphanCb v st a) x h)

/-- Fold form of `fromOrphanCb_nodes_sub`. -/
lemma foldl_fromOrphanCb_nodes_sub (v : Int) :
    ∀ (l : List OrphanRec) (st : NodeDB) (n : NodeRec),
      n ∈ (l.foldl (fromOrphanCb v) st).nodes → n ∈ st.nodes := by
  intro l
  induction l with
  | nil => intro st n h; exact h
  | cons a as ih =>
    intro st n h
    exact fromOrphanCb_nodes_sub v st a n (ih (fromOrphanCb v st a) n h)

/-- A processed orphan whose record the step deletes is gone after the
step. -/
lemma fromOrphanCb_removes_orphan (v : Int) (st : NodeDB) (o : OrphanRec)
    (h : v ≤ o.fromVersion ∨ v - 1 ≤ o.toVersion) :
    o ∉ (fromOrphanCb v st o).orphans := by
  intro hmem
  unfold fromOrphanCb orphansDelete at hmem
  split at hmem
  · simp [List.mem_filter] at hmem
  · split at hmem
    · simp [List.mem_filter] at hmem
    · omega

/-- Every orphan record with `fromVersion ≥ v` or `toVersion ≥ v - 1` that
occurs in the traversal list is absent afterwards. -/
lemma foldl_fromOrphanCb_removes_orphan (v : Int) :
    ∀ (l : List OrphanRec) (st : NodeDB) (o : OrphanRec), o ∈ l →
      (v ≤ o.fromVersion ∨ v - 1 ≤ o.toVersion) →
      o ∉ (l.foldl (fromOrphanCb v) st).orphans := by
  intro l
  induction l with
  | nil => intro st o h; cases h
  | cons a as ih =>
    intro st o hmem hcond
    rcases List.mem_cons.mp hmem with heq | htail
    · subst heq
      simp only [List.foldl_cons]
      intro hc
      exact fromOrphanCb_removes_orphan v st o hcond
        (foldl_fromOrphanCb_orphans_sub v as (fromOrphanCb v st o) o hc)
    · exact ih (fromOrphanCb v st a) o htail hcond

/-- After a step on an orphan born at or after `v`, no surviving node
record carries the orphan's hash. -/
lemma fromOrphanCb_removes_node (v : Int) (st : NodeDB) (o : OrphanRec)
    (h : v ≤ o.fromVersion) :
    ∀ n ∈ (fromOrphanCb v st o).nodes, n.hash ≠ o.hash := by
  intro n hn
  unfold fromOrphanCb at hn
  rw [if_pos (by omega)] at hn
  have := (List.mem_filter.mp hn).2
  simpa using this

/-- Fold form of `fromOrphanCb_removes_node`. -/
lemma foldl_fromOrphanCb_removes_node (v : Int) :
    ∀ (l : List OrphanRec) (st : NodeDB) (o : OrphanRec), o ∈ l →
      v ≤ o.fromVersion →
      ∀ n ∈ (l.foldl (fromOrphanCb v) st).nodes, n.hash ≠ o.hash := by
  intro l
  induction l with
  | nil => intro st o h; cases h
  | cons a as ih =>
    intro st o hmem hcond n hn
    rcases List.mem_cons.mp hmem with heq | htail
    · subst heq
      exact fromOrphanCb_removes_node v st o hcond n
        (foldl_fromOrphanCb_nodes_sub v as (fromOrphanCb v st o) n hn)
    · exact ih (fromOrphanCb v st a) o htail hcond n hn

/-- A step on an orphan that does not target hash `x` keeps every node
record with hash `x`. -/
lemma fromOrphanCb_keeps_node (v : Int) (st : NodeDB) (o : OrphanRec) (x : Bytes)
    (hno : ¬(v ≤ o.fromVersion ∧ o.hash = x)) :
    ∀ n ∈ st.nodes, n.hash = x → n ∈ (fromOrphanCb v st o).nodes := by
  intro n hn hx
  unfold fromOrphanCb
  split
  · next hge =>
    refine List.mem_filter.mpr ⟨hn, ?_⟩
    have : o.hash ≠ x := fun hc => hno ⟨by omega, hc⟩
    simp [hx]
    intro hc
    exact this (by rw [hc])
  · split
    · exact hn
    · exact hn

/-- Fold form of `fromOrphanCb_keeps_node`. -/
lemma foldl_fromOrphanCb_keeps_node (v : Int) :
    ∀ (l : List OrphanRec) (st : NodeDB) (x : Bytes),
      (∀ o2 ∈ l, ¬(v ≤ o2.fromVersion ∧ o2.hash = x)) →
      ∀ n ∈ st.nodes, n.hash = x → n ∈ (l.foldl (fromOrphanCb v) st).nodes := by
  intro l
  induction l with
  | nil => intro st x _ n hn _; exact hn
  | cons a as ih =>
    intro st x hall n hn hx
    exact ih (fromOrphanCb v st a) x (fun o2 h2 => hall o2 (List.mem_cons_of_mem a h2)) n
      (fromOrphanCb_keeps_node v st a x (hall a (List.mem_cons_self a as)) n hn hx) hx

/-- `DeleteFastNode` touches only the fast-node store and cache. -/
lemma DeleteFastNode_frame (st : NodeDB) (k : Bytes) :
    (DeleteFastNode st k).nodes = st.nodes ∧
    (DeleteFastNode st k).orphans = st.orphans ∧
    (DeleteFastNode st k).roots = st.roots ∧
    (DeleteFastNode st k).nodeCache = st.nodeCache := by
  unfold DeleteFastNode uncacheFastNode
  exact ⟨rfl, rfl, rfl, rfl⟩

/-- Fold form of `DeleteFastNode_frame` over the fast-node deletion loop. -/
lemma foldl_DeleteFastNode_frame :
    ∀ (l : List FastNodeRec) (st : NodeDB),
      ((l.foldl (fun acc f => DeleteFastNode acc f.key) st).nodes = st.nodes ∧
       (l.foldl (fun acc f => DeleteFastNode acc f.key) st).orphans = st.orphans ∧
       (l.foldl (fun acc f => DeleteFastNode acc f.key) st).roots = st.roots ∧
       (l.foldl (fun acc f => DeleteFastNode acc f.key) st).nodeCache = st.nodeCache) := by
  intro l
  induction l with
  | nil => intro st; exact ⟨rfl, rfl, rfl, rfl⟩
  | cons f fs ih =>
    intro st
    have hstep := DeleteFastNode_frame st f.key
    have hrest := ih (DeleteFastNode st f.key)
    simp only [List.foldl_cons]
    exact ⟨hrest.1.trans hstep.1, hrest.2.1.trans hstep.2.1,
      hrest.2.2.1.trans hstep.2.2.1, hrest.2.2.2.trans hstep.2.2.2⟩

/-- The root- and fast-node phases of `DeleteVersionsFrom` do not change
the node store. -/
lemma dvfResult_nodes (s : NodeDB) (v : Int) (del : List Bytes) :
    (dvfResult s v del).nodes = (dvfAfterOrphans s v del).nodes := by
  unfold dvfResult
  rw [(foldl_DeleteFastNode_frame _ _).1]

/-- The root- and fast-node phases of `DeleteVersionsFrom` do not change
the orphan store. -/
lemma dvfResult_orphans (s : NodeDB) (v : Int) (del : List Bytes) :
    (dvfResult s v del).orphans = (dvfAfterOrphans s v del).orphans := by
  unfold dvfResult
  rw [(foldl_DeleteFastNode_frame _ _).2.1]

/-- Every hash on a `deleteNodesFromList` deletion list resolves to a node
record whose version is at least the deletion version. -/
lemma deleteNodesFromList_sound (nodes : List NodeRec) (v : Int) :
    ∀ (fuel : Nat) (h : Bytes) (del : List Bytes),
      deleteNodesFromList nodes v fuel h = some del →
      ∀ x ∈ del, ∃ n, lookupNode nodes x = some n ∧ v ≤ n.version := by
  intro fuel
  induction fuel with
  | zero => intro h del hdel; cases hdel
  | succ f ih =>
    intro h del hdel x hx
    unfold deleteNodesFromList at hdel
    by_cases hemp : h.isEmpty = true
    · rw [if_pos hemp] at hdel
      cases hdel
      cases hx
    · rw [if_neg hemp] at hdel
      match hlook : lookupNode nodes h with
      | none => rw [hlook] at hdel; cases hdel
      | some node =>
        rw [hlook] at hdel
        dsimp only at hdel
        match hdl : (if node.leftHash.isEmpty then some []
            else deleteNodesFromList nodes v f node.leftHash) with
        | none => rw [hdl] at hdel; cases hdel
        | some dl =>
          rw [hdl] at hdel
          match hdr : (if node.rightHash.isEmpty then some []
              else deleteNodesFromList nodes v f node.rightHash) with
          | none => rw [hdr] at hdel; cases hdel
          | some dr =>
            rw [hdr] at hdel
            cases hdel
            rcases List.mem_append.mp hx with hx1 | hx2
            · rcases List.mem_append.mp hx1 with hxl | hxr
              · by_cases hle : node.leftHash.isEmpty = true
                · rw [if_pos hle] at hdl; cases hdl; cases hxl
                · rw [if_neg hle] at hdl; exact ih _ _ hdl x hxl
              · by_cases hre : node.rightHash.isEmpty = true
                · rw [if_pos hre] at hdr; cases hdr; cases hxr
                · rw [if_neg hre] at hdr; exact ih _ _ hdr x hxr
            · by_cases hver : v ≤ node.version
              · rw [if_pos hver] at hx2
                rcases List.mem_singleton.mp hx2 with rfl
                exact ⟨node, hlook, hver⟩
              · rw [if_neg hver] at hx2
                cases hx2

/-- Reduction of a `DeleteVersionsFrom` run that passes all its guards. -/
lemma DeleteVersionsFrom_run (fuel : Nat) (s : NodeDB) (v : Int)
    (root : Bytes) (del : List Bytes)
    (hlat : v ≤ getLatestVersion s)
    (hroot : lookupRoot s.roots (getLatestVersion s) = some root)
    (hrd : s.versionReaders.any (fun vr => decide (vr.1 ≥ v) && vr.2 != 0) = false)
    (hdel : deleteNodesFromList s.nodes v fuel root = some del) :
    DeleteVersionsFrom fuel s v = some (dvfResult s v del, none) := by
  unfold DeleteVersionsFrom memoLatest
  dsimp only
  rw [if_neg (by omega)]
  rw [show lookupRoot s.roots (getLatestVersion s) = some root from hroot]
  dsimp only
  rw [if_neg (by rw [hrd]; exact Bool.false_ne_true)]
  rw [hdel]
  rfl

/-- C2: under the claim's preconditions (`v ≤ latest`, a root record for
the latest version, no active readers at or above `v`, and enough fuel for
the node traversal), the run succeeds, and for every orphan record: one
with `fromVersion ≥ v` loses both its record and its node record, while
one with `fromVersion < v` and `toVersion ≥ v − 1` loses only its record —
its node record is kept, given that hashes determine the `fromVersion`
(content addressing) and that node versions agree with the orphan's birth
version. -/
theorem claim2_thm (fuel : Nat) (s : NodeDB) (v : Int) (root : Bytes) (del : List Bytes)
    (hlat : v ≤ getLatestVersion s)
    (hroot : lookupRoot s.roots (getLatestVersion s) = some root)
    (hreaders : ∀ p ∈ s.versionReaders, v ≤ p.1 → p.2 = 0)
    (hdel : deleteNodesFromList s.nodes v fuel root = some del) :
    ∃ s1, DeleteVersionsFrom fuel s v = some (s1, none) ∧
      ∀ o ∈ s.orphans,
        (v ≤ o.fromVersion →
          o ∉ s1.orphans ∧ ∀ n ∈ s1.nodes, n.hash ≠ o.hash) ∧
        (o.fromVersion < v → v - 1 ≤ o.toVersion →
          o ∉ s1.orphans ∧
          ((∀ o2 ∈ s.orphans, o2.hash = o.hash → o2.fromVersion = o.fromVersion) →
           (∀ n ∈ s.nodes, n.hash = o.hash → n.version < v) →
           ((∃ n ∈ s1.nodes, n.hash = o.hash) ↔ (∃ n ∈ s.nodes, n.hash = o.hash)))) := by
  have hrd : s.versionReaders.any (fun vr => decide (vr.1 ≥ v) && vr.2 != 0) = false := by
    rw [List.any_eq_false]
    intro p hp
    by_cases hv : v ≤ p.1
    · have h0 := hreaders p hp hv
      simp [h0]
    · simp [hv]
  refine ⟨dvfResult s v del, DeleteVersionsFrom_run fuel s v root del hlat hroot hrd hdel, ?_⟩
  intro o ho
  constructor
  · intro hge
    constructor
    · rw [dvfResult_orphans]
      exact foldl_fromOrphanCb_removes_orphan v s.orphans (dvfBase s del) o ho (Or.inl hge)
    · intro n hn
      rw [dvfResult_nodes] at hn
      exact foldl_fromOrphanCb_removes_node v s.orphans (dvfBase s del) o ho hge n hn
  · intro hlt hto
    constructor
    · rw [dvfResult_orphans]
      exact foldl_fromOrphanCb_removes_orphan v s.orphans (dvfBase s del) o ho (Or.inr hto)
    · intro hsame hver
      constructor
      · rintro ⟨n, hn, hx⟩
        refine ⟨n, ?_, hx⟩
        rw [dvfResult_nodes] at hn
        have hn3 := foldl_fromOrphanCb_nodes_sub v s.orphans (dvfBase s del) n hn
        exact (List.mem_filter.mp hn3).1
      · rintro ⟨n, hn, hx⟩
        have hnotdel : o.hash ∉ del := by
          intro hc
          obtain ⟨m, hm, hmv⟩ := deleteNodesFromList_sound s.nodes v fuel root del hdel _ hc
          have hmmem := List.mem_of_find?_eq_some hm
          have hmh := List.find?_some hm
          have : m.hash = o.hash := by simpa using hmh
          have := hver m hmmem this
          omega
        have hn1 : n ∈ (dvfBase s del).nodes := by
          refine List.mem_filter.mpr ⟨hn, ?_⟩
          simp only [Bool.not_eq_eq_eq_not, Bool.not_true]
          simp only [List.contains, decide_eq_false_iff_not]
          rw [hx]
          simpa using hnotdel
        have hkeep := foldl_fromOrphanCb_keeps_node v s.orphans (dvfBase s del) o.hash
          (fun o2 h2 hc => by
            have := hsame o2 h2 hc.2
            omega)
          n hn1 hx
        refine ⟨n, ?_, hx⟩
        rw [dvfResult_nodes]
        exact hkeep

/-- Witness for C2 at a concrete state: version 3 is rolled back; the
orphan born at version 3 loses record and node, the orphan that predates
version 3 loses only its record. -/
theorem claim2_witness :
    ∃ s1, DeleteVersionsFrom 10 fromSample 3 = some (s1, none) ∧
      ∀ o ∈ fromSample.orphans,
        ((3 : Int) ≤ o.fromVersion →
          o ∉ s1.orphans ∧ ∀ n ∈ s1.nodes, n.hash ≠ o.hash) ∧
        (o.fromVersion < 3 → (3 : Int) - 1 ≤ o.toVersion →
          o ∉ s1.orphans ∧
          ((∀ o2 ∈ fromSample.orphans, o2.hash = o.hash → o2.fromVersion = o.fromVersion) →
           (∀ n ∈ fromSample.nodes, n.hash = o.hash → n.version < 3) →
           ((∃ n ∈ s1.nodes, n.hash = o.hash) ↔ (∃ n ∈ fromSample.nodes, n.hash = o.hash)))) :=
  claim2_thm 10 fromSample 3 [9] [[9]] (by decide) (by decide)
    (by intro p hp; cases hp) (by decide)

/-! ## Claim C1: `DeleteVersionsRange` orphan handling -/

/-- Membership in the record store after a `batch.Set` of an orphan. -/
lemma orphansSet_mem (l : List OrphanRec) (r x : OrphanRec) :
    x ∈ orphansSet l r ↔ x ∈ l ∨ x = r := by
  unfold orphansSet
  by_cases h : l.any (fun y => y == r) = true
  · rw [if_pos h]
    constructor
    · exact Or.inl
    · rintro (hx | rfl)
      · exact hx
      · rcases List.any_eq_true.mp h with ⟨y, hy, hyr⟩
        rw [← show y = x from by simpa using hyr]
        exact hy
  · rw [if_neg h]
    constructor
    · intro hx
      rcases List.mem_append.mp hx with h1 | h2
      · exact Or.inl h1
      · exact Or.inr (List.mem_singleton.mp h2)
    · rintro (hx | rfl)
      · exact List.mem_append_left _ hx
      · exact List.mem_append_right _ (List.mem_singleton.mpr rfl)

/-- An orphan present after a `DeleteVersionsRange` traversal step was
present before, unless it is the step's own rewrite record (whose
`toVersion` is the predecessor). -/
lemma rangeOrphanStep_orphans_mem (pred : Int) (st : NodeDB) (o x : OrphanRec)
    (h : x ∈ (rangeOrphanStep pred st o).orphans) :
    x ∈ st.orphans ∨ x = ⟨pred, o.fromVersion, o.hash⟩ := by
  unfold rangeOrphanStep orphansDelete uncacheNode uncacheFastNode at h
  split at h
  · exact Or.inl (List.mem_filter.mp h).1
  · rcases (orphansSet_mem _ _ _).mp h with h1 | h2
    · exact Or.inl (List.mem_filter.mp h1).1
    · exact Or.inr h2

/-- Nodes only shrink under a traversal step. -/
lemma rangeOrphanStep_nodes_sub (pred : Int) (st : NodeDB) (o : OrphanRec)
    (n : NodeRec) (h : n ∈ (rangeOrphanStep pred st o).nodes) : n ∈ st.nodes := by
  unfold rangeOrphanStep uncacheNode uncacheFastNode at h
  split at h
  · exact (List.mem_filter.mp h).1
  · exact h

/-- The node cache only shrinks under a traversal step. -/
lemma rangeOrphanStep_nodeCache_sub (pred : Int) (st : NodeDB) (o : OrphanRec)
    (x : Bytes) (h : x ∈ (rangeOrphanStep pred st o).nodeCache) : x ∈ st.nodeCache := by
  unfold rangeOrphanStep uncacheNode uncacheFastNode at h
  split at h
  · exact (List.mem_filter.mp h).1
  · exact h

/-- The fast-node cache only shrinks under a traversal step. -/
lemma rangeOrphanStep_fastNodeCache_sub (pred : Int) (st : NodeDB) (o : OrphanRec)
    (f : FastNodeRec) (h : f ∈ (rangeOrphanStep pred st o).fastNodeCache) :
    f ∈ st.fastNodeCache := by
  unfold rangeOrphanStep uncacheNode uncacheFastNode at h
  split at h
  · exact (List.mem_filter.mp h).1
  · exact h

/-- A traversal step deletes the orphan record it processes (when its
rewrite, if any, does not recreate the very same record). -/
lemma rangeOrphanStep_removes_self (pred : Int) (st : NodeDB) (o : OrphanRec)
    (hne : o.toVersion ≠ pred) : o ∉ (rangeOrphanStep pred st o).orphans := by
  unfold rangeOrphanStep orphansDelete uncacheNode uncacheFastNode
  split
  · intro h
    have := (List.mem_filter.mp h).2
    simp at this
  · intro h
    rcases (orphansSet_mem _ _ _).mp h with h1 | h2
    · have := (List.mem_filter.mp h1).2
      simp at this
    · exact hne (by rw [h2])

/-- A traversal step keeps every other orphan record. -/
lemma rangeOrphanStep_preserves (pred : Int) (st : NodeDB) (o x : OrphanRec)
    (hx : x ∈ st.orphans) (hne : x ≠ o) : x ∈ (rangeOrphanStep pred st o).orphans := by
  unfold rangeOrphanStep orphansDelete uncacheNode uncacheFastNode
  split
  · exact List.mem_filter.mpr ⟨hx, by simp [hne]⟩
  · exact (orphansSet_mem _ _ _).mpr (Or.inl (List.mem_filter.mpr ⟨hx, by simp [hne]⟩))

/-- In the rewrite branch the step writes the shortened orphan record. -/
lemma rangeOrphanStep_inserts (pred : Int) (st : NodeDB) (o : OrphanRec)
    (h : ¬ pred < o.fromVersion) :
    (⟨pred, o.fromVersion, o.hash⟩ : OrphanRec) ∈ (rangeOrphanStep pred st o).orphans := by
  unfold rangeOrphanStep
  rw [if_neg h]
  exact (orphansSet_mem _ _ _).mpr (Or.inr rfl)

/-- In the delete branch the step deletes the node record, evicts the hash
from the node cache, and evicts the orphan's database key from the
fast-node cache. -/
lemma rangeOrphanStep_removes_node (pred : Int) (st : NodeDB) (o : OrphanRec)
    (h : pred < o.fromVersion) :
    (∀ n ∈ (rangeOrphanStep pred st o).nodes, n.hash ≠ o.hash) ∧
    (∀ x ∈ (rangeOrphanStep pred st o).nodeCache, x ≠ o.hash) ∧
    (∀ f ∈ (rangeOrphanStep pred st o).fastNodeCache,
      f.key ≠ orphanDbKey o.toVersion o.fromVersion o.hash) := by
  unfold rangeOrphanStep uncacheNode uncacheFastNode
  rw [if_pos h]
  refine ⟨?_, ?_, ?_⟩
  · intro n hn
    have := (List.mem_filter.mp hn).2
    simpa using this
  · intro x hx
    have := (List.mem_filter.mp hx).2
    simpa using this
  · intro f hf
    have := (List.mem_filter.mp hf).2
    simpa using this

/-- Fold form: an orphan present afterwards was present before or is a
rewrite record ending at the predecessor. -/
lemma foldR_orphans_sub (pred : Int) :
    ∀ (l : List OrphanRec) (st : NodeDB) (x : OrphanRec),
      x ∈ (l.foldl (rangeOrphanStep pred) st).orphans →
      x ∈ st.orphans ∨ x.toVersion = pred := by
  intro l
  induction l with
  | nil => intro st x h; exact Or.inl h
  | cons a as ih =>
    intro st x h
    rcases ih (rangeOrphanStep pred st a) x h with h1 | h2
    · rcases rangeOrphanStep_orphans_mem pred st a x h1 with h3 | h4
      · exact Or.inl h3
      · exact Or.inr (by rw [h4])
    · exact Or.inr h2

/-- Fold form of node shrinking. -/
lemma foldR_nodes_sub (pred : Int) :
    ∀ (l : List OrphanRec) (st : NodeDB) (n : NodeRec),
      n ∈ (l.foldl (rangeOrphanStep pred) st).nodes → n ∈ st.nodes := by
  intro l
  induction l with
  | nil => intro st n h; exact h
  | cons a as ih =>
    intro st n h
    exact rangeOrphanStep_nodes_sub pred st a n (ih (rangeOrphanStep pred st a) n h)

/-- Fold form of node-cache shrinking. -/
lemma foldR_nodeCache_sub (pred : Int) :
    ∀ (l : List OrphanRec) (st : NodeDB) (x : Bytes),
      x ∈ (l.foldl (rangeOrphanStep pred) st).nodeCache → x ∈ st.nodeCache := by
  intro l
  induction l with
  | nil => intro st x h; exact h
  | cons a as ih =>
    intro st x h
    exact rangeOrphanStep_nodeCache_sub pred st a x (ih (rangeOrphanStep pred st a) x h)

/-- Fold form of fast-node-cache shrinking. -/
lemma foldR_fastNodeCache_sub (pred : Int) :
    ∀ (l : List OrphanRec) (st : NodeDB) (f : FastNodeRec),
      f ∈ (l.foldl (rangeOrphanStep pred) st).fastNodeCache → f ∈ st.fastNodeCache := by
  intro l
  induction l with
  | nil => intro st f h; exact h
  | cons a as ih =>
    intro st f h
    exact rangeOrphanStep_fastNodeCache_sub pred st a f (ih (rangeOrphanStep pred st a) f h)

/-- An orphan record that is absent and does not end at the predecessor
stays absent through the fold. -/
lemma foldR_absent (pred : Int) (l : List OrphanRec) (st : NodeDB) (x : OrphanRec)
    (hx : x ∉ st.orphans) (hne : x.toVersion ≠ pred) :
    x ∉ (l.foldl (rangeOrphanStep pred) st).orphans := by
  intro h
  rcases foldR_orphans_sub pred l st x h with h1 | h2
  · exact hx h1
  · exact hne h2

/-- An orphan record distinct from every processed orphan stays present
through the fold. -/
lemma foldR_present (pred : Int) :
    ∀ (l : List OrphanRec) (st : NodeDB) (x : OrphanRec),
      x ∈ st.orphans → (∀ o2 ∈ l, x ≠ o2) →
      x ∈ (l.foldl (rangeOrphanStep pred) st).orphans := by
  intro l
  induction l with
  | nil => intro st x hx _; exact hx
  | cons a as ih =>
    intro st x hx hall
    exact ih (rangeOrphanStep pred st a) x
      (rangeOrphanStep_preserves pred st a x hx (hall a (List.mem_cons_self a as)))
      (fun o2 h2 => hall o2 (List.mem_cons_of_mem a h2))

/-- Every processed orphan record not ending at the predecessor is absent
after the fold. -/
lemma foldR_removes_triple (pred : Int) :
    ∀ (l : List OrphanRec) (st : NodeDB) (o : OrphanRec),
      o ∈ l → o.toVersion ≠ pred →
      o ∉ (l.foldl (rangeOrphanStep pred) st).orphans := by
  intro l
  induction l with
  | nil => intro st o h; cases h
  | cons a as ih =>
    intro st o hmem hne
    rcases List.mem_cons.mp hmem with heq | htail
    · subst heq
      exact foldR_absent pred as (rangeOrphanStep pred st o) o
        (rangeOrphanStep_removes_self pred st o hne) hne
    · exact ih (rangeOrphanStep pred st a) o htail hne

/-- Every processed orphan of the rewrite branch has its shortened record
present after the fold, provided no processed orphan record equals the
rewrite record. -/
lemma foldR_rewrite (pred : Int) :
    ∀ (l : List OrphanRec) (st : NodeDB) (o : OrphanRec),
      o ∈ l → ¬ pred < o.fromVersion →
      (∀ o2 ∈ l, (⟨pred, o.fromVersion, o.hash⟩ : OrphanRec) ≠ o2) →
      (⟨pred, o.fromVersion, o.hash⟩ : OrphanRec) ∈ (l.foldl (rangeOrphanStep pred) st).orphans := by
  intro l
  induction l with
  | nil => intro st o h; cases h
  | cons a as ih =>
    intro st o hmem hbr hall
    rcases List.mem_cons.mp hmem with heq | htail
    · subst heq
      exact foldR_present pred as (rangeOrphanStep pred st o) _
        (rangeOrphanStep_inserts pred st o hbr)
        (fun o2 h2 => hall o2 (List.mem_cons_of_mem o h2))
    · exact ih (rangeOrphanStep pred st a) o htail hbr
        (fun o2 h2 => hall o2 (List.mem_cons_of_mem a h2))

/-- Every processed orphan of the delete branch has its node record gone,
its hash out of the node cache, and its database key out of the fast-node
cache after the fold. -/
lemma foldR_removes_node (pred : Int) :
    ∀ (l : List OrphanRec) (st : NodeDB) (o : OrphanRec),
      o ∈ l → pred < o.fromVersion →
      ((∀ n ∈ (l.foldl (rangeOrphanStep pred) st).nodes, n.hash ≠ o.hash) ∧
       (∀ x ∈ (l.foldl (rangeOrphanStep pred) st).nodeCache, x ≠ o.hash) ∧
       (∀ f ∈ (l.foldl (rangeOrphanStep pred) st).fastNodeCache,
         f.key ≠ orphanDbKey o.toVersion o.fromVersion o.hash)) := by
  intro l
  induction l with
  | nil => intro st o h; cases h
  | cons a as ih =>
    intro st o hmem hbr
    rcases List.mem_cons.mp hmem with heq | htail
    · subst heq
      have hstep := rangeOrphanStep_removes_node pred st o hbr
      refine ⟨?_, ?_, ?_⟩
      · intro n hn
        exact hstep.1 n (foldR_nodes_sub pred as (rangeOrphanStep pred st o) n hn)
      · intro x hx
        exact hstep.2.1 x (foldR_nodeCache_sub pred as (rangeOrphanStep pred st o) x hx)
      · intro f hf
        exact hstep.2.2 f (foldR_fastNodeCache_sub pred as (rangeOrphanStep pred st o) f hf)
    · exact ih (rangeOrphanStep pred st a) o htail hbr

/-- The per-version traversal loop never errors and equals the pure nested
fold. -/
lemma rangeOrphanPhase_eq (pred : Int) (orig : List OrphanRec)
    (st : NodeDB) (versions : List Int) :
    rangeOrphanPhase pred orig st versions =
      (versions.foldl
        (fun st v => (orphansAtVersion orig v).foldl (rangeOrphanStep pred) st) st, none) := by
  unfold rangeOrphanPhase
  exact goFold_pure _ _
    (fun st1 v => goFold_pure _ _ (rangeOrphanCb_eq_step pred) (orphansAtVersion orig v) st1)
    versions st

/-- A fold of per-element folds is the fold over the concatenation. -/
lemma foldl_nested_bind (step : NodeDB → OrphanRec → NodeDB) (g : Int → List OrphanRec) :
    ∀ (vs : List Int) (st : NodeDB),
      vs.foldl (fun st v => (g v).foldl step st) st = (vs.flatMap g).foldl step st := by
  intro vs
  induction vs with
  | nil => intro st; rfl
  | cons v rest ih =>
    intro st
    simp only [List.foldl_cons, List.flatMap_cons, List.foldl_append]
    exact ih ((g v).foldl step st)

/-- Membership in a Go `for v := a; v < b; v++` index list. -/
lemma intRange_mem (a b x : Int) : x ∈ intRange a b ↔ a ≤ x ∧ x < b := by
  unfold intRange
  constructor
  · intro h
    rcases List.mem_map.mp h with ⟨i, hi, rfl⟩
    rw [List.mem_range] at hi
    omega
  · intro h
    refine List.mem_map.mpr ⟨(x - a).toNat, ?_, ?_⟩
    · rw [List.mem_range]
      omega
    · omega

/-- Membership in the orphan list of one version's traversal. -/
lemma orphansAtVersion_mem (l : List OrphanRec) (v : Int) (o : OrphanRec) :
    o ∈ orphansAtVersion l v ↔ o ∈ l ∧ o.toVersion = v := by
  unfold orphansAtVersion
  rw [List.mem_filter]
  simp

/-- `toU` is the identity on the unsigned 64-bit range. -/
lemma toU_eq_self (x : Int) (h0 : 0 ≤ x) (h1 : x < 2 ^ 64) : toU x = x := by
  unfold toU
  exact Int.emod_eq_of_lt h0 h1

/-- With root versions in the signed 64-bit range and `1 ≤ v < 2^63`, the
predecessor of `v` is non-negative and strictly below `v`. -/
lemma getPreviousVersion_lt (s : NodeDB) (v : Int)
    (hv1 : 1 ≤ v) (hv2 : v < 2 ^ 63)
    (hroots : ∀ r ∈ s.roots, 0 ≤ r.1 ∧ r.1 < 2 ^ 63) :
    0 ≤ getPreviousVersion s v ∧ getPreviousVersion s v < v := by
  unfold getPreviousVersion
  have hstep : ∀ (l : List (Int × Bytes)) (acc : Int),
      (∀ r ∈ l, 0 ≤ r.1 ∧ r.1 < 2 ^ 63) → 0 ≤ acc → acc < v →
      0 ≤ l.foldl
        (fun acc r => if 1 ≤ toU r.1 ∧ toU r.1 < toU v ∧ toU acc < toU r.1 then r.1 else acc)
        acc ∧
      l.foldl
        (fun acc r => if 1 ≤ toU r.1 ∧ toU r.1 < toU v ∧ toU acc < toU r.1 then r.1 else acc)
        acc < v := by
    intro l
    induction l with
    | nil => intro acc _ h0 h1; exact ⟨h0, h1⟩
    | cons r rs ih =>
      intro acc hb h0 h1
      simp only [List.foldl_cons]
      by_cases hc : 1 ≤ toU r.1 ∧ toU r.1 < toU v ∧ toU acc < toU r.1
      · rw [if_pos hc]
        have hrb := hb r (List.mem_cons_self r rs)
        have hru : toU r.1 = r.1 := toU_eq_self r.1 hrb.1 (by omega)
        have hvu : toU v = v := toU_eq_self v (by omega) (by omega)
        have hrv : r.1 < v := by
          rw [hru, hvu] at hc
          exact hc.2.1
        exact ih r.1 (fun x hx => hb x (List.mem_cons_of_mem r hx)) hrb.1 hrv
      · rw [if_neg hc]
        exact ih acc (fun x hx => hb x (List.mem_cons_of_mem r hx)) h0 h1
  exact hstep s.roots 0 hroots le_rfl (by omega)

/-- Reduction of a `DeleteVersionsRange` run that passes all its guards. -/
lemma DeleteVersionsRange_run (s : NodeDB) (fromV toV : Int)
    (h1 : ¬ fromV ≥ toV) (h2 : toV ≠ 0)
    (hlat : ¬ getLatestVersion s < toV)
    (hrd : s.versionReaders.any (fun vr => decide (vr.1 < toV)
        && decide (getPreviousVersion s fromV < vr.1) && vr.2 != 0) = false) :
    DeleteVersionsRange s fromV toV = (dvrResult s fromV toV, none) := by
  unfold DeleteVersionsRange memoLatest
  dsimp only
  rw [if_neg h1, if_neg h2, if_neg hlat]
  rw [if_neg (by
    intro hcontra
    have hcontra2 : (s.versionReaders.any (fun vr => decide (vr.1 < toV)
        && decide (getPreviousVersion s fromV < vr.1) && vr.2 != 0)) = true := hcontra
    rw [hrd] at hcontra2
    exact Bool.false_ne_true hcontra2)]
  rw [rangeOrphanPhase_eq]
  rfl

/-- C1 (amended): under the claim's preconditions (versions in the valid
signed range, `1 ≤ from < to ≤ latest`, no reader strictly between the
predecessor of `from` and `to`), the call succeeds and each orphan record
ending inside `[from, to)` is deleted; when its `fromVersion` exceeds the
predecessor its node record is deleted, its hash is evicted from the node
cache, and the fast-node cache entry stored under the orphan's full
database key (not the node's user key) is evicted; otherwise the orphan is
rewritten as `(predecessor, fromVersion, hash)`. -/
theorem claim1_thm (s : NodeDB) (fromV toV : Int)
    (hfrom1 : 1 ≤ fromV) (hlt : fromV < toV) (hto63 : toV < 2 ^ 63)
    (hroots : ∀ r ∈ s.roots, 0 ≤ r.1 ∧ r.1 < 2 ^ 63)
    (hlat : toV ≤ getLatestVersion s)
    (hreaders : ∀ p ∈ s.versionReaders,
      getPreviousVersion s fromV < p.1 → p.1 < toV → p.2 = 0) :
    ∃ s1, DeleteVersionsRange s fromV toV = (s1, none) ∧
      ∀ o ∈ s.orphans, fromV ≤ o.toVersion → o.toVersion < toV →
        (o ∉ s1.orphans ∧
         (getPreviousVersion s fromV < o.fromVersion →
           ((∀ n ∈ s1.nodes, n.hash ≠ o.hash) ∧
            (∀ x ∈ s1.nodeCache, x ≠ o.hash) ∧
            (∀ f ∈ s1.fastNodeCache,
              f.key ≠ orphanDbKey o.toVersion o.fromVersion o.hash))) ∧
         (¬ getPreviousVersion s fromV < o.fromVersion →
           (⟨getPreviousVersion s fromV, o.fromVersion, o.hash⟩ : OrphanRec) ∈ s1.orphans)) := by
  have hpred := getPreviousVersion_lt s fromV hfrom1 (by omega) hroots
  have hrd : s.versionReaders.any (fun vr => decide (vr.1 < toV)
      && decide (getPreviousVersion s fromV < vr.1) && vr.2 != 0) = false := by
    rw [List.any_eq_false]
    intro p hp
    by_cases hc1 : getPreviousVersion s fromV < p.1
    · by_cases hc2 : p.1 < toV
      · have h0 := hreaders p hp hc1 hc2
        simp [h0]
      · simp [hc2]
    · simp [hc1]
  refine ⟨dvrResult s fromV toV,
    DeleteVersionsRange_run s fromV toV (by omega) (by omega) (by omega) hrd, ?_⟩
  intro o ho hot1 hot2
  have hflat : dvrOrphanPhase s fromV toV
      = ((intRange fromV toV).flatMap (fun v => orphansAtVersion s.orphans v)).foldl
          (rangeOrphanStep (getPreviousVersion s fromV))
          { s with latestVersion := getLatestVersion s } := by
    unfold dvrOrphanPhase
    exact foldl_nested_bind _ _ _ _
  have hoQ : o ∈ (intRange fromV toV).flatMap (fun v => orphansAtVersion s.orphans v) := by
    rw [List.mem_flatMap]
    exact ⟨o.toVersion, (intRange_mem _ _ _).mpr ⟨hot1, hot2⟩,
      (orphansAtVersion_mem _ _ _).mpr ⟨ho, rfl⟩⟩
  have hQall : ∀ o2 ∈ (intRange fromV toV).flatMap (fun v => orphansAtVersion s.orphans v),
      fromV ≤ o2.toVersion ∧ o2.toVersion < toV := by
    intro o2 h2
    rcases List.mem_flatMap.mp h2 with ⟨v, hv, ho2⟩
    have hv2 := (intRange_mem _ _ _).mp hv
    have ho22 := (orphansAtVersion_mem _ _ _).mp ho2
    constructor
    · omega
    · omega
  have hs1orph : (dvrResult s fromV toV).orphans = (dvrOrphanPhase s fromV toV).orphans := rfl
  have hs1nodes : (dvrResult s fromV toV).nodes = (dvrOrphanPhase s fromV toV).nodes := rfl
  have hs1nc : (dvrResult s fromV toV).nodeCache = (dvrOrphanPhase s fromV toV).nodeCache := rfl
  refine ⟨?_, ?_, ?_⟩
  · rw [hs1orph, hflat]
    exact foldR_removes_triple (getPreviousVersion s fromV) _ _ o hoQ (by omega)
  · intro hbr
    have hdel := foldR_removes_node (getPreviousVersion s fromV) _
      { s with latestVersion := getLatestVersion s } o hoQ hbr
    refine ⟨?_, ?_, ?_⟩
    · intro n hn
      refine hdel.1 n ?_
      rw [hs1nodes, hflat] at hn
      exact hn
    · intro x hx
      refine hdel.2.1 x ?_
      rw [hs1nc, hflat] at hx
      exact hx
    · intro f hf
      have hf2 : f ∈ ((dvrOrphanPhase s fromV toV).fastNodeCache.filter
          (fun f => !(decide (fromV ≤ f.versionLastUpdatedAt)
                      && decide (f.versionLastUpdatedAt < toV)))) := hf
      refine hdel.2.2 f ?_
      have hf3 := (List.mem_filter.mp hf2).1
      rw [hflat] at hf3
      exact hf3
  · intro hbr
    rw [hs1orph, hflat]
    refine foldR_rewrite (getPreviousVersion s fromV) _ _ o hoQ hbr ?_
    intro o2 h2 hceq
    have hb2 := hQall o2 h2
    have : o2.toVersion = getPreviousVersion s fromV := by rw [← hceq]
    omega

/-- Counterexample to C1 as stated: running `DeleteVersionsRange 2 3` on a
state whose orphan `(2, 2, [9])` falls in the delete branch (its node has
user key `[5]`) leaves the fast-node cache entry for the user key `[5]` in
place — the eviction call uses the orphan's database key, not the user
key. -/
theorem claim1_counterexample :
    (DeleteVersionsRange rangeSample 2 3).2 = none ∧
    lookupNode rangeSample.nodes [9]
      = some { hash := [9], key := [5], version := 2, leftHash := [], rightHash := [] } ∧
    ({ toVersion := 2, fromVersion := 2, hash := [9] } : OrphanRec) ∈ rangeSample.orphans ∧
    getPreviousVersion rangeSample 2 < 2 ∧
    (DeleteVersionsRange rangeSample 2 3).1.fastNodeCache.any (fun f => f.key == [5]) = true := by
  decide

/-- Witness for C1 at a concrete state. -/
theorem claim1_witness :
    ∃ s1, DeleteVersionsRange rangeSample 2 3 = (s1, none) ∧
      ∀ o ∈ rangeSample.orphans, (2 : Int) ≤ o.toVersion → o.toVersion < 3 →
        (o ∉ s1.orphans ∧
         (getPreviousVersion rangeSample 2 < o.fromVersion →
           ((∀ n ∈ s1.nodes, n.hash ≠ o.hash) ∧
            (∀ x ∈ s1.nodeCache, x ≠ o.hash) ∧
            (∀ f ∈ s1.fastNodeCache,
              f.key ≠ orphanDbKey o.toVersion o.fromVersion o.hash))) ∧
         (¬ getPreviousVersion rangeSample 2 < o.fromVersion →
           (⟨getPreviousVersion rangeSample 2, o.fromVersion, o.hash⟩ : OrphanRec) ∈ s1.orphans)) :=
  claim1_thm rangeSample 2 3 (by decide) (by decide) (by decide) (by decide) (by decide)
    (by intro p hp; cases hp)

end Iavl
